import Mathlib

/-!
Shallow embedding of the sequence Bloom tree implementation (`sbt.py`).

The membership filter (khmer `Nodegraph`) is an external collaborator; we
model a filter's raw state as the finite set of bit positions that are set
(`Finset ℕ`), in-place `update` (union of bit tables) as `∪`, and the
point-membership test `get` as "all hash-bit positions of the element are
set", parameterised by the hash family.  All tree-level code (`SBT.add_node`,
`SBT.find`, `SBT.save`, `SBT.load`, `filter_distance`) is translated
statement by statement from `sbt.py`.
-/

set_option linter.unusedVariables false

/-- A tree node: `Node` is an internal node (`sbt.py` class `Node`),
`leaf` a `Leaf` (metadata, name, filter).  In `Leaf.__init__` the name
defaults to the metadata when not supplied. -/
inductive PNode where
  | node (graph : Finset ℕ) (name : String)
  | leaf (metadata : String) (name : String) (graph : Finset ℕ)
deriving DecidableEq

namespace PNode

/-- `Leaf(metadata, nodegraph)` with the default `name=None` branch. -/
def mkLeaf (metadata : String) (graph : Finset ℕ) : PNode :=
  leaf metadata metadata graph

def graph : PNode → Finset ℕ
  | node g _ => g
  | leaf _ _ g => g

def name : PNode → String
  | node _ nm => nm
  | leaf _ nm _ => nm

def isLeaf : PNode → Bool
  | node _ _ => false
  | leaf _ _ _ => true

/-- `isinstance(n, Node)` — an internal node. -/
def isNode : PNode → Bool
  | node _ _ => true
  | leaf _ _ _ => false

/-- In-place `n.graph.update(g)`: union the extra bits into the node's filter. -/
def withGraph : PNode → Finset ℕ → PNode
  | node g nm, g' => node (g ∪ g') nm
  | leaf md nm g, g' => leaf md nm (g ∪ g')

/-- The caller-visible identity of a node: a Leaf's metadata (internal nodes
expose their synthetic name). -/
def identity : PNode → String
  | node _ nm => nm
  | leaf md _ _ => md

/-- Leaf nodes carry their metadata into the saved manifest record. -/
def metadataOpt : PNode → Option String
  | node _ _ => none
  | leaf md _ _ => some md

end PNode

/-- `Nodegraph.get(e)`: the filter reports element `e` present when all of
`e`'s hash-bit positions (`hs e`) are set in the bit table. -/
def reports (hs : ℕ → Finset ℕ) (g : Finset ℕ) (e : ℕ) : Prop :=
  hs e ⊆ g

instance (hs : ℕ → Finset ℕ) (g : Finset ℕ) (e : ℕ) : Decidable (reports hs g e) := by
  unfold reports; infer_instance

/-- The SBT proper: a heap-indexed array of optional nodes.
`SBT.__init__` starts with `self.nodes = [None]`.  (The `factory` field only
manufactures fresh empty filters and is dropped: a fresh filter is `∅`.) -/
structure SBT where
  nodes : List (Option PNode)
deriving DecidableEq

/-- `self.nodes.index(None)` — index of the first empty slot, if any. -/
def indexOfNone : List (Option PNode) → Option ℕ
  | [] => none
  | none :: _ => some 0
  | some _ :: rest => (indexOfNone rest).map (· + 1)

/-- `int(math.floor((pos - 1) / 2))` — the heap parent position (callers
guard `pos ≠ 0`, where the Python `parent` returns `None`). -/
def parentPos (pos : ℕ) : ℕ := (pos - 1) / 2

/-- The entry of the node array at `i` (`self.nodes[i]`), with positions
outside the array reading as empty.  (On trees built by `add_node` every
position the code dereferences is in range.) -/
def nodeAt (t : SBT) (i : ℕ) : Option PNode := t.nodes.getD i none

/-- The bit table of the node stored at `i` (empty when the slot is). -/
def graphAt (t : SBT) (i : ℕ) : Finset ℕ :=
  ((nodeAt t i).map PNode.graph).getD ∅

/-- One step of the `while p:` loop body `p.node.graph.update(node.graph)`:
union `g` into the filter of the node at position `i`.  (A `None` entry, on
which the Python would raise `AttributeError`, is left unchanged; positions
this is applied to are always occupied on trees built by `add_node`.) -/
def updateGraphAt (nodes : List (Option PNode)) (i : ℕ) (g : Finset ℕ) :
    List (Option PNode) :=
  match nodes.get? i with
  | some (some n) => nodes.set i (some (n.withGraph (n.graph ∪ g)))
  | _ => nodes

/-- The ancestor-update loop of `add_node`:
`p = self.parent(p.pos); while p: p.node.graph.update(node.graph); p = self.parent(p.pos)` —
union `g` into every strict ancestor of `pos`, walking up to the root. -/
def updateAncestorsGo (g : Finset ℕ) : ℕ → List (Option PNode) → ℕ → List (Option PNode)
  | 0, nodes, _ => nodes
  | fuel + 1, nodes, pos =>
    if pos = 0 then nodes
    else updateAncestorsGo g fuel (updateGraphAt nodes (parentPos pos) g) (parentPos pos)

/-- The loop runs at most `pos` iterations (the parent chain strictly
descends), so fuel `pos` never runs out; `updateAncestors_eq` below recovers
the unbounded while-loop unfolding. -/
def updateAncestors (g : Finset ℕ) (nodes : List (Option PNode)) (pos : ℕ) :
    List (Option PNode) :=
  updateAncestorsGo g pos nodes pos

/-- `SBT.add_node`, line by line: find the first empty slot (extending the
array by `current_size + 1` empty slots when full); an empty tree takes the
node as root; otherwise, when the parent slot holds a Leaf, replace it with
a fresh internal node whose filter is the union of both children's filters,
place the old Leaf and the new node in the two child slots, and union the
new node's filter into every ancestor.  When the parent slot holds an
internal node the commented-out fall-through applies: nothing is attached. -/
def SBT.add_node (t : SBT) (node : PNode) : SBT :=
  let step : List (Option PNode) × ℕ :=
    match indexOfNone t.nodes with
    | some p => (t.nodes, p)
    | none => (t.nodes ++ List.replicate (t.nodes.length + 1) none, t.nodes.length)
  let ns := step.1
  let pos := step.2
  if pos = 0 then ⟨ns.set 0 (some node)⟩
  else
    let pp := parentPos pos
    match ns.getD pp none with
    | some (PNode.leaf md nm g) =>
      let c1 := 2 * pp + 1
      let c2 := 2 * (pp + 1)
      let n := PNode.node (g ∪ node.graph) ("internal." ++ toString pp)
      let ns := ((ns.set pp (some n)).set c1 (some (PNode.leaf md nm g))).set c2 (some node)
      ⟨updateAncestors node.graph ns pp⟩
    | _ => ⟨ns⟩

/-- The `while queue:` loop of `SBT.find`.  `queue.pop(0)` makes the queue
FIFO; a freshly seen node is added to `visited`, tested with the search
function, appended to the matches when it is a Leaf, and its two child
positions `2*pos+1, 2*(pos+1)` are enqueued when it is internal.  We record
match *positions* (the Python appends the node object living there) and
return the final `visited` set together with them. -/
def findLoop (nodes : List (Option PNode)) (pred : PNode → Bool) :
    ℕ → Finset ℕ → List ℕ → List ℕ → Finset ℕ × List ℕ
  | _, visited, [], acc => (visited, acc)
  | 0, visited, _ :: _, acc => (visited, acc)
  | fuel + 1, visited, p :: rest, acc =>
    match nodes.getD p none with
    | none => findLoop nodes pred fuel visited rest acc
    | some n =>
      if p ∈ visited then findLoop nodes pred fuel visited rest acc
      else
        if pred n then
          if n.isLeaf then
            findLoop nodes pred fuel (insert p visited) rest (acc ++ [p])
          else
            findLoop nodes pred fuel (insert p visited)
              (rest ++ [2 * p + 1, 2 * (p + 1)]) acc
        else findLoop nodes pred fuel (insert p visited) rest acc

/-- The positions of the matches `SBT.find` collects, in collection order.
The loop terminates within `2 * nodes.length + 1` iterations: each pop
either consumes a queue entry or additionally marks an unvisited in-range
position visited while enqueueing at most two children, so this fuel never
runs out (`findLoop_spec` is independent of any larger fuel). -/
def SBT.findPositions (t : SBT) (pred : PNode → Bool) : List ℕ :=
  (findLoop t.nodes pred (2 * t.nodes.length + 1) ∅ [0] []).2

/-- The final `visited` set of the `find` loop. -/
def SBT.visitedSet (t : SBT) (pred : PNode → Bool) : Finset ℕ :=
  (findLoop t.nodes pred (2 * t.nodes.length + 1) ∅ [0] []).1

/-- `SBT.find(search_fn)`: the matching Leaf objects in collection order. -/
def SBT.find (t : SBT) (pred : PNode → Bool) : List PNode :=
  (t.findPositions pred).filterMap (fun p => t.nodes.getD p none)

/-- The empty tree `SBT(factory)`. -/
def SBT.empty : SBT := ⟨[none]⟩

/-- A tree grown from the empty tree by repeated `add_node` of the given
(leaf) nodes, in order. -/
def insertLeaves (ls : List PNode) : SBT :=
  ls.foldl SBT.add_node SBT.empty

/-- Built from the empty tree by repeated insertion of Leaf nodes, as every
caller in the repository does. -/
def Reachable (t : SBT) : Prop :=
  ∃ ls : List PNode, (∀ n ∈ ls, n.isLeaf = true) ∧ t = insertLeaves ls

/-- First empty slot of the array, or the array length when it is full —
the position `add_node` will attach at. -/
def firstFreePos (t : SBT) : ℕ :=
  (indexOfNone t.nodes).getD t.nodes.length

/-! ### Heap-position ancestry -/

/-- `a` is an ancestor of `z` or `z` itself, following the parent chain
`pos ↦ (pos - 1) / 2` used by `SBT.parent` and `SBT.children`. -/
def ancBGo (a : ℕ) : ℕ → ℕ → Bool
  | 0, z => decide (z = a)
  | fuel + 1, z =>
    if z = a then true
    else if z = 0 then false
    else ancBGo a fuel (parentPos z)

def ancB (a : ℕ) (z : ℕ) : Bool := ancBGo a z z

lemma parentPos_lt {z : ℕ} (h : 0 < z) : parentPos z < z :=
  Nat.lt_of_le_of_lt (Nat.div_le_self _ 2) (Nat.pred_lt (Nat.pos_iff_ne_zero.mp h))

lemma parentPos_left (p : ℕ) : parentPos (2 * p + 1) = p := by
  unfold parentPos; omega

lemma parentPos_right (p : ℕ) : parentPos (2 * p + 2) = p := by
  unfold parentPos; omega

lemma parentPos_cases {z : ℕ} (h : 0 < z) :
    z = 2 * parentPos z + 1 ∨ z = 2 * parentPos z + 2 := by
  unfold parentPos; omega

lemma ancBGo_congr (a : ℕ) :
    ∀ f1 f2 z, z ≤ f1 → z ≤ f2 → ancBGo a f1 z = ancBGo a f2 z := by
  intro f1
  induction f1 with
  | zero =>
    intro f2 z hz1 hz2
    have hz : z = 0 := by omega
    subst hz
    cases f2 with
    | zero => rfl
    | succ f2 => by_cases h0 : (0 : ℕ) = a <;> simp [ancBGo, h0]
  | succ f1 ih =>
    intro f2 z hz1 hz2
    cases f2 with
    | zero =>
      have hz : z = 0 := by omega
      subst hz
      by_cases h0 : (0 : ℕ) = a <;> simp [ancBGo, h0]
    | succ f2 =>
      simp only [ancBGo]
      by_cases hza : z = a
      · simp [hza]
      · by_cases hz0 : z = 0
        · simp [hza, hz0]
        · have hp := parentPos_lt (Nat.pos_of_ne_zero hz0)
          simp only [hza, hz0, if_false]
          exact ih f2 (parentPos z) (by omega) (by omega)

lemma ancBGo_self (a f z : ℕ) (h : z = a) : ancBGo a f z = true := by
  subst h
  cases f with
  | zero => simp [ancBGo]
  | succ f => simp [ancBGo]

/-- The defining step of the ancestor test, independent of the fuel. -/
lemma ancB_unfold (a z : ℕ) :
    ancB a z = if z = a then true
      else if z = 0 then false else ancB a (parentPos z) := by
  by_cases hza : z = a
  · rw [if_pos hza]
    exact ancBGo_self a z z hza
  · rw [if_neg hza]
    by_cases hz0 : z = 0
    · subst hz0
      rw [if_pos rfl]
      show ancBGo a 0 0 = false
      simp only [ancBGo, decide_eq_false_iff_not]
      exact hza
    · rw [if_neg hz0]
      obtain ⟨k, rfl⟩ : ∃ k, z = k + 1 := ⟨z - 1, by omega⟩
      show ancBGo a (k + 1) (k + 1) = ancBGo a (parentPos (k + 1)) (parentPos (k + 1))
      have hp := parentPos_lt (show 0 < k + 1 by omega)
      simp only [ancBGo, hza, hz0, if_false]
      exact ancBGo_congr a k (parentPos (k + 1)) (parentPos (k + 1)) (by omega) le_rfl

lemma ancB_refl (a : ℕ) : ancB a a = true := ancBGo_self a a a rfl

lemma ancB_of_ne {a z : ℕ} (h : z ≠ a) (h0 : z ≠ 0) :
    ancB a z = ancB a (parentPos z) := by
  rw [ancB_unfold, if_neg h, if_neg h0]

lemma ancB_zero_iff {a z : ℕ} (hz : z = 0) : ancB a z = true ↔ a = 0 := by
  subst hz
  constructor
  · intro h
    rw [ancB_unfold] at h
    by_cases h0 : (0 : ℕ) = a
    · omega
    · simp [h0] at h
  · intro h; subst h; exact ancB_refl 0

lemma ancB_le {a z : ℕ} (h : ancB a z = true) : a ≤ z := by
  induction z using Nat.strong_induction_on with
  | _ z ih =>
    by_cases hz : z = a
    · omega
    by_cases h0 : z = 0
    · subst h0
      have := (ancB_zero_iff rfl).mp h
      omega
    · rw [ancB_of_ne hz h0] at h
      have := ih (parentPos z) (parentPos_lt (Nat.pos_of_ne_zero h0)) h
      have := parentPos_lt (Nat.pos_of_ne_zero h0)
      omega

lemma ancB_zero_left (z : ℕ) : ancB 0 z = true := by
  induction z using Nat.strong_induction_on with
  | _ z ih =>
    by_cases hz : z = 0
    · subst hz; exact ancB_refl 0
    · rw [ancB_of_ne hz hz]
      exact ih (parentPos z) (parentPos_lt (Nat.pos_of_ne_zero hz))

lemma ancB_trans {a b z : ℕ} (hab : ancB a b = true) (hbz : ancB b z = true) :
    ancB a z = true := by
  induction z using Nat.strong_induction_on with
  | _ z ih =>
    by_cases hz : z = b
    · subst hz; exact hab
    by_cases h0 : z = 0
    · subst h0
      have hb0 := (ancB_zero_iff rfl).mp hbz
      exact absurd hb0.symm hz
    · rw [ancB_of_ne hz h0] at hbz
      have hrec := ih (parentPos z) (parentPos_lt (Nat.pos_of_ne_zero h0)) hbz
      by_cases hza : z = a
      · subst hza; exact ancB_refl _
      · rw [ancB_of_ne hza h0]; exact hrec

lemma ancB_parent (z : ℕ) (h0 : z ≠ 0) : ancB (parentPos z) z = true := by
  by_cases hz : z = parentPos z
  · rw [← hz]; exact ancB_refl z
  · rw [ancB_of_ne hz h0]; exact ancB_refl _

lemma ancB_child_left (p : ℕ) : ancB p (2 * p + 1) = true := by
  have := ancB_parent (2 * p + 1) (by omega)
  rwa [parentPos_left] at this

lemma ancB_child_right (p : ℕ) : ancB p (2 * p + 2) = true := by
  have := ancB_parent (2 * p + 2) (by omega)
  rwa [parentPos_right] at this

lemma ancB_antisymm {a b : ℕ} (h1 : ancB a b = true) (h2 : ancB b a = true) :
    a = b :=
  Nat.le_antisymm (ancB_le h1) (ancB_le h2)

/-- A strict descendant of `p` lies in the subtree of one of `p`'s children. -/
lemma ancB_child_split {p z : ℕ} (h : ancB p z = true) (hne : z ≠ p) :
    ancB (2 * p + 1) z = true ∨ ancB (2 * p + 2) z = true := by
  induction z using Nat.strong_induction_on with
  | _ z ih =>
    by_cases h0 : z = 0
    · subst h0
      have := (ancB_zero_iff rfl).mp h
      omega
    rw [ancB_of_ne hne h0] at h
    by_cases hw : parentPos z = p
    · rcases parentPos_cases (Nat.pos_of_ne_zero h0) with hc | hc
      · left; rw [hw] at hc; rw [hc]; exact ancB_refl _
      · right; rw [hw] at hc; rw [hc]; exact ancB_refl _
    · have hrec := ih (parentPos z) (parentPos_lt (Nat.pos_of_ne_zero h0)) h hw
      rcases hrec with hc | hc
      · left
        by_cases hz : z = 2 * p + 1
        · rw [hz]; exact ancB_refl _
        · rw [ancB_of_ne hz h0]; exact hc
      · right
        by_cases hz : z = 2 * p + 2
        · rw [hz]; exact ancB_refl _
        · rw [ancB_of_ne hz h0]; exact hc

/-- A strict descendant of `p` is at least `p`'s left child position. -/
lemma ancB_strict_lb {p z : ℕ} (h : ancB p z = true) (hne : z ≠ p) :
    2 * p + 1 ≤ z := by
  rcases ancB_child_split h hne with hc | hc
  · exact ancB_le hc
  · have := ancB_le hc; omega

/-! ### Characterising the `find` loop -/

/-- Every strict ancestor of `z` holds an internal node accepted by the
search function — exactly the condition under which the `find` loop's
breadth-first descent reaches position `z`. -/
def goodPathGo (nodes : List (Option PNode)) (pred : PNode → Bool) :
    ℕ → ℕ → Bool
  | 0, _ => true
  | fuel + 1, z =>
    if z = 0 then true
    else
      (match nodes.getD (parentPos z) none with
       | some n => !n.isLeaf && pred n
       | none => false) && goodPathGo nodes pred fuel (parentPos z)

def goodPath (nodes : List (Option PNode)) (pred : PNode → Bool) (z : ℕ) : Bool :=
  goodPathGo nodes pred z z

/-- Position `z` holds a Leaf accepted by the search function and is reached
by the descent: the condition for `z` to appear among `find`'s matches. -/
def matchCond (nodes : List (Option PNode)) (pred : PNode → Bool) (z : ℕ) : Bool :=
  goodPath nodes pred z &&
    match nodes.getD z none with
    | some nd => nd.isLeaf && pred nd
    | none => false

/-- Position `z` is occupied and reached by the descent: the condition for
`z` to enter the loop's `visited` set. -/
def visitCond (nodes : List (Option PNode)) (pred : PNode → Bool) (z : ℕ) : Bool :=
  goodPath nodes pred z && (nodes.getD z none).isSome

lemma goodPathGo_congr (nodes : List (Option PNode)) (pred : PNode → Bool) :
    ∀ f1 f2 z, z ≤ f1 → z ≤ f2 →
      goodPathGo nodes pred f1 z = goodPathGo nodes pred f2 z := by
  intro f1
  induction f1 with
  | zero =>
    intro f2 z hz1 hz2
    have hz : z = 0 := by omega
    subst hz
    cases f2 with
    | zero => rfl
    | succ f2 => simp [goodPathGo]
  | succ f1 ih =>
    intro f2 z hz1 hz2
    cases f2 with
    | zero =>
      have hz : z = 0 := by omega
      subst hz
      simp [goodPathGo]
    | succ f2 =>
      simp only [goodPathGo]
      by_cases hz0 : z = 0
      · simp [hz0]
      · have hp := parentPos_lt (Nat.pos_of_ne_zero hz0)
        simp only [hz0, if_false]
        rw [ih f2 (parentPos z) (by omega) (by omega)]

lemma goodPath_zero (nodes : List (Option PNode)) (pred : PNode → Bool) :
    goodPath nodes pred 0 = true := rfl

lemma goodPath_of_ne {nodes : List (Option PNode)} {pred : PNode → Bool} {z : ℕ}
    (h0 : z ≠ 0) :
    goodPath nodes pred z =
      ((match nodes.getD (parentPos z) none with
        | some n => !n.isLeaf && pred n
        | none => false) && goodPath nodes pred (parentPos z)) := by
  obtain ⟨k, rfl⟩ : ∃ k, z = k + 1 := ⟨z - 1, by omega⟩
  have hp := parentPos_lt (show 0 < k + 1 by omega)
  show goodPathGo nodes pred (k + 1) (k + 1) = _
  simp only [goodPathGo, h0, if_false]
  rw [goodPathGo_congr nodes pred k (parentPos (k + 1)) (parentPos (k + 1))
      (by omega) le_rfl]
  rfl

/-- Along a good path, every strict ancestor holds an accepted internal
node and itself has a good path. -/
lemma goodPath_ancestor {nodes : List (Option PNode)} {pred : PNode → Bool}
    {z a : ℕ} (hg : goodPath nodes pred z = true) (ha : ancB a z = true)
    (hne : a ≠ z) :
    (∃ n, nodes.getD a none = some n ∧ n.isLeaf = false ∧ pred n = true) ∧
      goodPath nodes pred a = true := by
  induction z using Nat.strong_induction_on with
  | _ z ih =>
    by_cases h0 : z = 0
    · subst h0
      have := (ancB_zero_iff rfl).mp ha
      exact absurd this hne
    · rw [goodPath_of_ne h0] at hg
      simp only [Bool.and_eq_true] at hg
      obtain ⟨hpar, hgpar⟩ := hg
      have hparn : ∃ n, nodes.getD (parentPos z) none = some n ∧
          n.isLeaf = false ∧ pred n = true := by
        cases hn : nodes.getD (parentPos z) none with
        | none => rw [hn] at hpar; exact absurd hpar (by simp)
        | some n =>
          rw [hn] at hpar
          simp only [Bool.and_eq_true, Bool.not_eq_true'] at hpar
          exact ⟨n, rfl, hpar.1, hpar.2⟩
      rw [ancB_of_ne (fun h => hne h.symm) h0] at ha
      by_cases hap : a = parentPos z
      · subst hap; exact ⟨hparn, hgpar⟩
      · exact ih (parentPos z) (parentPos_lt (Nat.pos_of_ne_zero h0)) hgpar ha hap

lemma goodPath_child {nodes : List (Option PNode)} {pred : PNode → Bool}
    {p : ℕ} {n : PNode} (hn : nodes.getD p none = some n)
    (hleaf : n.isLeaf = false) (hpred : pred n = true)
    (hg : goodPath nodes pred p = true) {c : ℕ}
    (hc : c = 2 * p + 1 ∨ c = 2 * p + 2) :
    goodPath nodes pred c = true := by
  have hc0 : c ≠ 0 := by omega
  have hpc : parentPos c = p := by
    rcases hc with h | h <;> subst h
    · exact parentPos_left p
    · exact parentPos_right p
  rw [goodPath_of_ne hc0, hpc, hn]
  simp [hleaf, hpred, hg]

/-- If some queue entry is an ancestor-or-self of `z`. -/
def reachedBy (queue : List ℕ) (z : ℕ) : Bool :=
  queue.any (fun a => ancB a z)

lemma bool_eq_of_iff {a b : Bool} (h : a = true ↔ b = true) : a = b := by
  cases a <;> cases b <;> simp_all

lemma bool_or_elim {a b : Bool} (h : (a || b) = true) : a = true ∨ b = true := by
  cases a <;> cases b <;> simp_all

lemma getD_lt_length {nodes : List (Option PNode)} {p : ℕ} {n : PNode}
    (h : nodes.getD p none = some n) : p < nodes.length := by
  by_contra hge
  rw [List.getD_eq_default _ _ (by omega)] at h
  exact Option.noConfusion h

/-- Splitting the filtered range at its least accepted element. -/
lemma filter_range_eq_cons {L p : ℕ} {f g : ℕ → Bool} (hp : p < L)
    (hfp : f p = true) (hlow : ∀ z, z < p → f z = false) (hgp : g p = false)
    (hrest : ∀ z, z ≠ p → f z = g z) :
    (List.range L).filter f = p :: (List.range L).filter g := by
  induction L with
  | zero => omega
  | succ L ih =>
    rw [List.range_succ, List.filter_append, List.filter_append]
    by_cases hpL : p < L
    · rw [ih hpL]
      have hL : List.filter f [L] = List.filter g [L] := by
        simp only [List.filter]
        rw [hrest L (by omega)]
      rw [hL]
      simp
    · have hpeq : p = L := by omega
      subst hpeq
      have h1 : (List.range p).filter f = [] := by
        rw [List.filter_eq_nil_iff]
        intro z hz
        simp only [List.mem_range] at hz
        simp [hlow z hz]
      have h2 : (List.range p).filter g = [] := by
        rw [List.filter_eq_nil_iff]
        intro z hz
        simp only [List.mem_range] at hz
        rw [← hrest z (by omega)]
        simp [hlow z hz]
      simp [h1, h2, List.filter, hfp, hgp]

/-- The Finset analogue: removing the distinguished element from the
acceptance condition turns the filter into an `insert`. -/
lemma filter_range_eq_insert {L p : ℕ} {f g : ℕ → Bool} (hp : p < L)
    (hfp : f p = true) (hgp : g p = false)
    (hrest : ∀ z, z ≠ p → f z = g z) :
    (Finset.range L).filter (fun z => f z = true) =
      insert p ((Finset.range L).filter (fun z => g z = true)) := by
  ext z
  simp only [Finset.mem_insert, Finset.mem_filter, Finset.mem_range]
  constructor
  · rintro ⟨hzL, hfz⟩
    by_cases hzp : z = p
    · exact Or.inl hzp
    · right
      refine ⟨hzL, ?_⟩
      rw [← hrest z hzp]
      exact hfz
  · intro h
    rcases h with h | ⟨hzL, hgz⟩
    · subst h; exact ⟨hp, hfp⟩
    · by_cases hzp : z = p
      · subst hzp
        rw [hgp] at hgz
        exact absurd hgz (by simp)
      · refine ⟨hzL, ?_⟩
        rw [hrest z hzp]
        exact hgz

/-- Filters over the same range agree when the conditions agree pointwise. -/
lemma filter_range_congr_finset {L : ℕ} {f g : ℕ → Bool}
    (h : ∀ z, f z = g z) :
    (Finset.range L).filter (fun z => f z = true) =
      (Finset.range L).filter (fun z => g z = true) := by
  apply Finset.filter_congr
  intro z _
  rw [h z]

lemma filter_range_congr_list {L : ℕ} {f g : ℕ → Bool}
    (h : ∀ z, f z = g z) :
    (List.range L).filter f = (List.range L).filter g := by
  apply List.filter_congr
  intro z _
  rw [h z]

lemma reach_cons (queue : List ℕ) (p z : ℕ) :
    reachedBy (p :: queue) z = (ancB p z || reachedBy queue z) := by
  simp [reachedBy]

lemma reach_append (q1 q2 : List ℕ) (z : ℕ) :
    reachedBy (q1 ++ q2) z = (reachedBy q1 z || reachedBy q2 z) := by
  simp [reachedBy, List.any_append]

lemma reach_pair (c1 c2 z : ℕ) :
    reachedBy [c1, c2] z = (ancB c1 z || ancB c2 z) := by
  simp [reachedBy]

/-- All entries of a sorted queue dominate positions below its head. -/
lemma reach_head_min {p : ℕ} {rest : List ℕ}
    (hpw : List.Pairwise (· < ·) (p :: rest)) :
    ∀ z, z < p → reachedBy (p :: rest) z = false := by
  intro z hz
  by_contra h
  have h' : reachedBy (p :: rest) z = true := by simpa using h
  obtain ⟨a, ha, hanc⟩ := List.any_eq_true.mp h'
  have hle := ancB_le hanc
  rcases List.mem_cons.mp ha with rfl | ha'
  · omega
  · have := (List.pairwise_cons.mp hpw).1 a ha'
    omega

/-- The head of a sorted queue is not reached from the tail. -/
lemma reach_tail_head {p : ℕ} {rest : List ℕ}
    (hpw : List.Pairwise (· < ·) (p :: rest)) :
    reachedBy rest p = false := by
  by_contra h
  have h' : reachedBy rest p = true := by simpa using h
  obtain ⟨a, ha, hanc⟩ := List.any_eq_true.mp h'
  have hle := ancB_le hanc
  have := (List.pairwise_cons.mp hpw).1 a ha
  omega

lemma matchCond_parts {nodes : List (Option PNode)} {pred : PNode → Bool} {z : ℕ}
    (h : matchCond nodes pred z = true) :
    goodPath nodes pred z = true ∧
      ∃ nd, nodes.getD z none = some nd ∧ nd.isLeaf = true ∧ pred nd = true := by
  unfold matchCond at h
  cases hz : nodes.getD z none with
  | none => rw [hz] at h; simp at h
  | some nd =>
    rw [hz] at h
    simp only [Bool.and_eq_true] at h
    exact ⟨h.1, nd, rfl, h.2.1, h.2.2⟩

lemma visitCond_parts {nodes : List (Option PNode)} {pred : PNode → Bool} {z : ℕ}
    (h : visitCond nodes pred z = true) :
    goodPath nodes pred z = true ∧ (nodes.getD z none).isSome = true := by
  unfold visitCond at h
  simpa using h

lemma matchCond_intro {nodes : List (Option PNode)} {pred : PNode → Bool} {p : ℕ}
    {n : PNode} (hg : goodPath nodes pred p = true)
    (hget : nodes.getD p none = some n) (hl : n.isLeaf = true)
    (hp : pred n = true) : matchCond nodes pred p = true := by
  unfold matchCond
  rw [hget]
  simp [hg, hl, hp]

lemma visitCond_intro {nodes : List (Option PNode)} {pred : PNode → Bool} {p : ℕ}
    {n : PNode} (hg : goodPath nodes pred p = true)
    (hget : nodes.getD p none = some n) : visitCond nodes pred p = true := by
  unfold visitCond
  rw [hget, hg]
  simp

lemma matchCond_false_of_not_leaf {nodes : List (Option PNode)} {pred : PNode → Bool}
    {p : ℕ} {n : PNode} (hget : nodes.getD p none = some n)
    (h : n.isLeaf = false) : matchCond nodes pred p = false := by
  unfold matchCond
  rw [hget]
  simp [h]

lemma matchCond_false_of_not_pred {nodes : List (Option PNode)} {pred : PNode → Bool}
    {p : ℕ} {n : PNode} (hget : nodes.getD p none = some n)
    (h : pred n = false) : matchCond nodes pred p = false := by
  unfold matchCond
  rw [hget]
  simp [h]

/-- A position whose node is a Leaf, is rejected by the search function, or
is absent has no strict descendant with a good path. -/
lemma goodPath_no_strict_desc {nodes : List (Option PNode)} {pred : PNode → Bool}
    {p : ℕ} {n : PNode} (hget : nodes.getD p none = some n)
    (hbad : n.isLeaf = true ∨ pred n = false) :
    ∀ z, z ≠ p → goodPath nodes pred z = true → ancB p z = false := by
  intro z hzp hg
  by_contra h
  have h' : ancB p z = true := by simpa using h
  obtain ⟨⟨m, hm, hml, hmp⟩, _⟩ := goodPath_ancestor hg h' (fun he => hzp he.symm)
  rw [hget] at hm
  cases hm
  rcases hbad with hb | hb
  · rw [hml] at hb; exact Bool.noConfusion hb
  · rw [hmp] at hb; exact Bool.noConfusion hb

lemma goodPath_no_desc_of_none {nodes : List (Option PNode)} {pred : PNode → Bool}
    {p : ℕ} (hget : nodes.getD p none = none) :
    ∀ z, goodPath nodes pred z = true → (nodes.getD z none).isSome = true →
      ancB p z = false := by
  intro z hg hocc
  by_contra h
  have h' : ancB p z = true := by simpa using h
  by_cases hzp : z = p
  · subst hzp
    rw [hget] at hocc
    exact Bool.noConfusion hocc
  · obtain ⟨⟨m, hm, _, _⟩, _⟩ := goodPath_ancestor hg h' (fun he => hzp he.symm)
    rw [hget] at hm
    exact Option.noConfusion hm

lemma findLoop_nil (nodes : List (Option PNode)) (pred : PNode → Bool)
    (fuel : ℕ) (visited : Finset ℕ) (acc : List ℕ) :
    findLoop nodes pred fuel visited [] acc = (visited, acc) := by
  cases fuel <;> rfl

lemma spec_rhs_nil (nodes : List (Option PNode)) (pred : PNode → Bool)
    (visited : Finset ℕ) (acc : List ℕ) :
    (visited ∪ (Finset.range nodes.length).filter
        (fun z => (visitCond nodes pred z && reachedBy [] z) = true),
      acc ++ (List.range nodes.length).filter
        (fun z => matchCond nodes pred z && reachedBy [] z)) =
      ((visited : Finset ℕ), acc) := by
  have hv : (Finset.range nodes.length).filter
      (fun z => (visitCond nodes pred z && reachedBy [] z) = true) = ∅ := by
    apply Finset.filter_false_of_mem
    intro z hz
    simp [reachedBy]
  have hm : (List.range nodes.length).filter
      (fun z => matchCond nodes pred z && reachedBy [] z) = [] := by
    rw [List.filter_eq_nil_iff]
    intro z hz
    simp [reachedBy]
  rw [hv, hm]
  simp

/-- Full characterisation of the `find` loop: starting from a sorted queue
whose entries are unvisited child positions with good paths, the loop ends
with `visited` extended by every reachable occupied position on a good path,
and appends to the matches, in increasing position order, every reachable
position holding an accepted Leaf. -/
lemma findLoop_spec (nodes : List (Option PNode)) (pred : PNode → Bool) :
    ∀ (fuel : ℕ) (visited : Finset ℕ) (queue acc : List ℕ),
      2 * (nodes.length - (visited.filter (· < nodes.length)).card) + queue.length ≤ fuel →
      List.Pairwise (· < ·) queue →
      (∀ v ∈ visited, ∀ q ∈ queue, v < q) →
      (∀ q ∈ queue, q = 0 ∨ ∃ v ∈ visited, q = 2 * v + 1 ∨ q = 2 * v + 2) →
      (∀ q ∈ queue, goodPath nodes pred q = true) →
      findLoop nodes pred fuel visited queue acc =
        (visited ∪ (Finset.range nodes.length).filter
            (fun z => (visitCond nodes pred z && reachedBy queue z) = true),
         acc ++ (List.range nodes.length).filter
            (fun z => matchCond nodes pred z && reachedBy queue z)) := by
  intro fuel
  induction fuel with
  | zero =>
    intro visited queue acc hM hpw hlt hjust hgood
    have hq : queue = [] := List.length_eq_zero.mp (by omega)
    subst hq
    rw [findLoop_nil, spec_rhs_nil]
  | succ N ih =>
    intro visited queue acc hM hpw hlt hjust hgood
    cases queue with
    | nil => rw [findLoop_nil, spec_rhs_nil]
    | cons p rest =>
      have hpq : p ∈ p :: rest := by simp
      have hgp : goodPath nodes pred p = true := hgood p hpq
      have hnv : p ∉ visited := fun h => absurd (hlt p h p hpq) (lt_irrefl p)
      have hpwrest : List.Pairwise (· < ·) rest := (List.pairwise_cons.mp hpw).2
      have hheadlt : ∀ q ∈ rest, p < q := (List.pairwise_cons.mp hpw).1
      rw [findLoop]
      split
      · -- slot p is empty: skip; no reachable-through-p position survives
        rename_i hget
        rw [ih visited rest acc (by simp only [List.length_cons] at hM; omega)
            hpwrest
            (fun v hv q hq => hlt v hv q (List.mem_cons_of_mem _ hq))
            (fun q hq => hjust q (List.mem_cons_of_mem _ hq))
            (fun q hq => hgood q (List.mem_cons_of_mem _ hq))]
        have hdm : ∀ z, (matchCond nodes pred z && reachedBy (p :: rest) z)
            = (matchCond nodes pred z && reachedBy rest z) := by
          intro z
          cases hmz : matchCond nodes pred z with
          | false => simp
          | true =>
            obtain ⟨hgz, nd, hnd, _, _⟩ := matchCond_parts hmz
            have hanc : ancB p z = false :=
              goodPath_no_desc_of_none hget z hgz (by rw [hnd]; rfl)
            rw [reach_cons, hanc]
            simp
        have hdv : ∀ z, (visitCond nodes pred z && reachedBy (p :: rest) z)
            = (visitCond nodes pred z && reachedBy rest z) := by
          intro z
          cases hvz : visitCond nodes pred z with
          | false => simp
          | true =>
            obtain ⟨hgz, hocc⟩ := visitCond_parts hvz
            have hanc : ancB p z = false :=
              goodPath_no_desc_of_none hget z hgz hocc
            rw [reach_cons, hanc]
            simp
        rw [filter_range_congr_finset hdv, filter_range_congr_list hdm]
      · -- slot p is occupied
        rename_i n hget
        have hpL : p < nodes.length := getD_lt_length hget
        have hcard : ((insert p visited).filter (· < nodes.length)).card
            = (visited.filter (· < nodes.length)).card + 1 := by
          rw [Finset.filter_insert, if_pos hpL,
            Finset.card_insert_of_not_mem
              (by simp only [Finset.mem_filter]; exact fun h => hnv h.1)]
        have hcub : ((insert p visited).filter (· < nodes.length)).card
            ≤ nodes.length := by
          calc ((insert p visited).filter (· < nodes.length)).card
              ≤ (Finset.range nodes.length).card := by
                apply Finset.card_le_card
                intro x hx
                simp only [Finset.mem_filter] at hx
                simpa using hx.2
            _ = nodes.length := Finset.card_range _
        rw [if_neg hnv]
        by_cases hpred : pred n = true
        · rw [if_pos hpred]
          by_cases hleaf : n.isLeaf = true
          · -- accepted Leaf: appended to the matches
            rw [if_pos hleaf]
            rw [ih (insert p visited) rest (acc ++ [p])
                (by simp only [List.length_cons] at hM; omega)
                hpwrest
                (by
                  intro v hv q hq
                  rcases Finset.mem_insert.mp hv with rfl | hv'
                  · exact hheadlt q hq
                  · exact hlt v hv' q (List.mem_cons_of_mem _ hq))
                (by
                  intro q hq
                  rcases hjust q (List.mem_cons_of_mem _ hq) with h0 | ⟨v, hv, hc⟩
                  · exact Or.inl h0
                  · exact Or.inr ⟨v, Finset.mem_insert_of_mem hv, hc⟩)
                (fun q hq => hgood q (List.mem_cons_of_mem _ hq))]
            have hmp : matchCond nodes pred p = true :=
              matchCond_intro hgp hget hleaf hpred
            have hvp : visitCond nodes pred p = true :=
              visitCond_intro hgp hget
            have hrt : reachedBy rest p = false := reach_tail_head hpw
            have hshield : ∀ z, z ≠ p →
                (reachedBy (p :: rest) z = true → reachedBy rest z = true) ∨
                  goodPath nodes pred z = false := by
              intro z hzp
              cases hgz : goodPath nodes pred z with
              | false => exact Or.inr rfl
              | true =>
                left
                intro hr
                rw [reach_cons] at hr
                rcases bool_or_elim hr with h1 | h1
                · rw [goodPath_no_strict_desc hget (Or.inl hleaf) z hzp hgz] at h1
                  exact Bool.noConfusion h1
                · exact h1
            have hlistm : (List.range nodes.length).filter
                (fun z => matchCond nodes pred z && reachedBy (p :: rest) z)
                = p :: (List.range nodes.length).filter
                    (fun z => matchCond nodes pred z && reachedBy rest z) := by
              apply filter_range_eq_cons hpL
              · rw [hmp, reach_cons, ancB_refl]
                rfl
              · intro z hz
                rw [reach_head_min hpw z hz]
                simp
              · rw [hmp, hrt]
                rfl
              · intro z hzp
                cases hmz : matchCond nodes pred z with
                | false => simp
                | true =>
                  obtain ⟨hgz, _⟩ := matchCond_parts hmz
                  rcases hshield z hzp with hs | hs
                  · simp only [Bool.true_and]
                    apply bool_eq_of_iff
                    constructor
                    · exact hs
                    · intro hr
                      rw [reach_cons, hr, Bool.or_true]
                  · rw [hs] at hgz
                    exact Bool.noConfusion hgz
            have hfinv : (Finset.range nodes.length).filter
                (fun z => (visitCond nodes pred z && reachedBy (p :: rest) z) = true)
                = insert p ((Finset.range nodes.length).filter
                    (fun z => (visitCond nodes pred z && reachedBy rest z) = true)) := by
              apply filter_range_eq_insert hpL
              · rw [hvp, reach_cons, ancB_refl]
                rfl
              · rw [hvp, hrt]
                rfl
              · intro z hzp
                cases hvz : visitCond nodes pred z with
                | false => simp
                | true =>
                  obtain ⟨hgz, _⟩ := visitCond_parts hvz
                  rcases hshield z hzp with hs | hs
                  · simp only [Bool.true_and]
                    apply bool_eq_of_iff
                    constructor
                    · exact hs
                    · intro hr
                      rw [reach_cons, hr, Bool.or_true]
                  · rw [hs] at hgz
                    exact Bool.noConfusion hgz
            rw [hlistm, hfinv]
            simp only [Prod.mk.injEq]
            constructor
            · rw [Finset.union_insert, Finset.insert_union]
            · simp
          · -- accepted internal node: both children enqueued
            rw [if_neg hleaf]
            have hleaf' : n.isLeaf = false := by
              cases hh : n.isLeaf
              · rfl
              · exact absurd hh hleaf
            have h22 : 2 * (p + 1) = 2 * p + 2 := by omega
            have hreach : ∀ z, z ≠ p → reachedBy (p :: rest) z
                = reachedBy (rest ++ [2 * p + 1, 2 * (p + 1)]) z := by
              intro z hzp
              rw [reach_append, reach_pair, reach_cons, h22]
              apply bool_eq_of_iff
              constructor
              · intro hr
                rcases bool_or_elim hr with h1 | h1
                · rcases ancB_child_split h1 hzp with hc | hc
                  · rw [hc]
                    simp
                  · rw [hc]
                    simp
                · rw [h1]
                  simp
              · intro hr
                rcases bool_or_elim hr with h1 | h1
                · rw [h1]
                  simp
                · rcases bool_or_elim h1 with h2 | h2
                  · rw [ancB_trans (ancB_child_left p) h2]
                    simp
                  · rw [ancB_trans (ancB_child_right p) h2]
                    simp
            rw [ih (insert p visited) (rest ++ [2 * p + 1, 2 * (p + 1)]) acc
                (by
                  simp only [List.length_cons, List.length_append] at hM ⊢
                  simp only [List.length_cons, List.length_nil]
                  omega)
                (by
                  rw [List.pairwise_append]
                  refine ⟨hpwrest, ?_, ?_⟩
                  · refine List.pairwise_cons.mpr ⟨?_, List.pairwise_singleton _ _⟩
                    intro y hy
                    simp only [List.mem_cons, List.not_mem_nil, or_false] at hy
                    subst hy
                    omega
                  intro x hx y hy
                  have hx0 : p < x := hheadlt x hx
                  rcases hjust x (List.mem_cons_of_mem _ hx) with h0 | ⟨v, hv, hc⟩
                  · omega
                  · have hvp' : v < p := hlt v hv p hpq
                    have hxle : x ≤ 2 * p := by omega
                    simp only [List.mem_cons, List.not_mem_nil, or_false] at hy
                    rcases hy with rfl | rfl <;> omega)
                (by
                  intro v hv q hq
                  rcases List.mem_append.mp hq with hq' | hq'
                  · rcases Finset.mem_insert.mp hv with rfl | hv'
                    · exact hheadlt q hq'
                    · exact hlt v hv' q (List.mem_cons_of_mem _ hq')
                  · simp only [List.mem_cons, List.not_mem_nil, or_false] at hq'
                    rcases Finset.mem_insert.mp hv with rfl | hv'
                    · rcases hq' with rfl | rfl <;> omega
                    · have : v < p := hlt v hv' p hpq
                      rcases hq' with rfl | rfl <;> omega)
                (by
                  intro q hq
                  rcases List.mem_append.mp hq with hq' | hq'
                  · rcases hjust q (List.mem_cons_of_mem _ hq') with h0 | ⟨v, hv, hc⟩
                    · exact Or.inl h0
                    · exact Or.inr ⟨v, Finset.mem_insert_of_mem hv, hc⟩
                  · simp only [List.mem_cons, List.not_mem_nil, or_false] at hq'
                    rcases hq' with rfl | rfl
                    · exact Or.inr ⟨p, Finset.mem_insert_self p visited, Or.inl rfl⟩
                    · exact Or.inr ⟨p, Finset.mem_insert_self p visited,
                        Or.inr (by omega)⟩)
                (by
                  intro q hq
                  rcases List.mem_append.mp hq with hq' | hq'
                  · exact hgood q (List.mem_cons_of_mem _ hq')
                  · simp only [List.mem_cons, List.not_mem_nil, or_false] at hq'
                    rcases hq' with rfl | rfl
                    · exact goodPath_child hget hleaf' hpred hgp (Or.inl rfl)
                    · exact goodPath_child hget hleaf' hpred hgp (Or.inr (by omega)))]
            have hmp : matchCond nodes pred p = false :=
              matchCond_false_of_not_leaf hget hleaf'
            have hvp : visitCond nodes pred p = true :=
              visitCond_intro hgp hget
            have hlistm : (List.range nodes.length).filter
                (fun z => matchCond nodes pred z && reachedBy (p :: rest) z)
                = (List.range nodes.length).filter
                    (fun z => matchCond nodes pred z
                      && reachedBy (rest ++ [2 * p + 1, 2 * (p + 1)]) z) := by
              apply filter_range_congr_list
              intro z
              by_cases hzp : z = p
              · subst hzp
                rw [hmp]
                simp
              · rw [hreach z hzp]
            have hrt : reachedBy rest p = false := reach_tail_head hpw
            have hrnew : reachedBy (rest ++ [2 * p + 1, 2 * (p + 1)]) p = false := by
              rw [reach_append, reach_pair, hrt, h22]
              have h1 : ancB (2 * p + 1) p = false := by
                by_contra hx
                have := ancB_le (by simpa using hx)
                omega
              have h2 : ancB (2 * p + 2) p = false := by
                by_contra hx
                have := ancB_le (by simpa using hx)
                omega
              rw [h1, h2]
              rfl
            have hfinv : (Finset.range nodes.length).filter
                (fun z => (visitCond nodes pred z && reachedBy (p :: rest) z) = true)
                = insert p ((Finset.range nodes.length).filter
                    (fun z => (visitCond nodes pred z
                      && reachedBy (rest ++ [2 * p + 1, 2 * (p + 1)]) z) = true)) := by
              apply filter_range_eq_insert hpL
              · rw [hvp, reach_cons, ancB_refl]
                rfl
              · rw [hvp, hrnew]
                rfl
              · intro z hzp
                rw [hreach z hzp]
            rw [hlistm, hfinv]
            simp only [Prod.mk.injEq]
            constructor
            · rw [Finset.union_insert, Finset.insert_union]
            · trivial
        · -- rejected node: subtree pruned
          rw [if_neg hpred]
          have hpred' : pred n = false := by
            cases hh : pred n
            · rfl
            · exact absurd hh hpred
          rw [ih (insert p visited) rest acc
              (by simp only [List.length_cons] at hM; omega)
              hpwrest
              (by
                intro v hv q hq
                rcases Finset.mem_insert.mp hv with rfl | hv'
                · exact hheadlt q hq
                · exact hlt v hv' q (List.mem_cons_of_mem _ hq))
              (by
                intro q hq
                rcases hjust q (List.mem_cons_of_mem _ hq) with h0 | ⟨v, hv, hc⟩
                · exact Or.inl h0
                · exact Or.inr ⟨v, Finset.mem_insert_of_mem hv, hc⟩)
              (fun q hq => hgood q (List.mem_cons_of_mem _ hq))]
          have hmp : matchCond nodes pred p = false :=
            matchCond_false_of_not_pred hget hpred'
          have hvp : visitCond nodes pred p = true :=
            visitCond_intro hgp hget
          have hrt : reachedBy rest p = false := reach_tail_head hpw
          have hshield : ∀ z, z ≠ p → goodPath nodes pred z = true →
              ancB p z = false :=
            goodPath_no_strict_desc hget (Or.inr hpred')
          have hlistm : (List.range nodes.length).filter
              (fun z => matchCond nodes pred z && reachedBy (p :: rest) z)
              = (List.range nodes.length).filter
                  (fun z => matchCond nodes pred z && reachedBy rest z) := by
            apply filter_range_congr_list
            intro z
            by_cases hzp : z = p
            · subst hzp
              rw [hmp]
              simp
            · cases hmz : matchCond nodes pred z with
              | false => simp
              | true =>
                obtain ⟨hgz, _⟩ := matchCond_parts hmz
                rw [reach_cons, hshield z hzp hgz]
                simp
          have hfinv : (Finset.range nodes.length).filter
              (fun z => (visitCond nodes pred z && reachedBy (p :: rest) z) = true)
              = insert p ((Finset.range nodes.length).filter
                  (fun z => (visitCond nodes pred z && reachedBy rest z) = true)) := by
            apply filter_range_eq_insert hpL
            · rw [hvp, reach_cons, ancB_refl]
              rfl
            · rw [hvp, hrt]
              rfl
            · intro z hzp
              cases hvz : visitCond nodes pred z with
              | false => simp
              | true =>
                obtain ⟨hgz, _⟩ := visitCond_parts hvz
                rw [reach_cons, hshield z hzp hgz]
                simp
          rw [hlistm, hfinv]
          simp only [Prod.mk.injEq]
          constructor
          · rw [Finset.union_insert, Finset.insert_union]
          · trivial

/-- `find` collects exactly the positions holding an accepted Leaf whose
whole ancestor path consists of accepted internal nodes — in increasing
position order (the FIFO queue pops positions in increasing order). -/
lemma findPositions_eq (t : SBT) (pred : PNode → Bool) :
    t.findPositions pred
      = (List.range t.nodes.length).filter (matchCond t.nodes pred) := by
  unfold SBT.findPositions
  rw [findLoop_spec t.nodes pred (2 * t.nodes.length + 1)
      ∅ [0] [] (by simp)
      (List.pairwise_singleton _ _)
      (by intro v hv; exact absurd hv (Finset.not_mem_empty v))
      (by intro q hq; simp only [List.mem_singleton] at hq; exact Or.inl hq)
      (by
        intro q hq
        simp only [List.mem_singleton] at hq
        subst hq
        exact goodPath_zero _ _)]
  simp only [List.nil_append]
  apply List.filter_congr
  intro z hz
  rw [reach_cons, ancB_zero_left]
  simp

/-- The loop's final `visited` set: every occupied position on a fully
accepted ancestor path. -/
lemma visitedSet_eq (t : SBT) (pred : PNode → Bool) :
    t.visitedSet pred
      = (Finset.range t.nodes.length).filter
          (fun z => visitCond t.nodes pred z = true) := by
  unfold SBT.visitedSet
  rw [findLoop_spec t.nodes pred (2 * t.nodes.length + 1)
      ∅ [0] [] (by simp)
      (List.pairwise_singleton _ _)
      (by intro v hv; exact absurd hv (Finset.not_mem_empty v))
      (by intro q hq; simp only [List.mem_singleton] at hq; exact Or.inl hq)
      (by
        intro q hq
        simp only [List.mem_singleton] at hq
        subst hq
        exact goodPath_zero _ _)]
  simp only [Finset.empty_union]
  apply Finset.filter_congr
  intro z hz
  rw [reach_cons, ancB_zero_left]
  simp

/-- A sample point-membership search function: does the node's filter have
bit 1 set (e.g. the single hash bit of one element)? -/
def containsOne : PNode → Bool := fun n => decide (1 ∈ n.graph)

/-- C2: for every tree, every caller-supplied predicate and every node
visited by `find`: if the predicate rejects the node, no Leaf position in
its subtree appears in the result; if the node is a Leaf the predicate
accepts, it is included in the result. -/
theorem sbt_find_prune_include (t : SBT) (pred : PNode → Bool) (p : ℕ)
    (nd : PNode) (hv : p ∈ t.visitedSet pred) (hnd : nodeAt t p = some nd) :
    (pred nd = false → ∀ z, ancB p z = true → z ∉ t.findPositions pred) ∧
    (nd.isLeaf = true → pred nd = true →
      p ∈ t.findPositions pred ∧ nd ∈ t.find pred) := by
  rw [visitedSet_eq] at hv
  simp only [Finset.mem_filter, Finset.mem_range] at hv
  obtain ⟨hpL, hvc⟩ := hv
  obtain ⟨hgp, hocc⟩ := visitCond_parts hvc
  have hget : t.nodes.getD p none = some nd := hnd
  constructor
  · intro hpred z hanc hzmem
    rw [findPositions_eq] at hzmem
    simp only [List.mem_filter, List.mem_range] at hzmem
    obtain ⟨hzL, hmz⟩ := hzmem
    obtain ⟨hgz, nd', hnd', hl', hp'⟩ := matchCond_parts hmz
    by_cases hzp : z = p
    · subst hzp
      rw [hget] at hnd'
      cases hnd'
      rw [hp'] at hpred
      exact Bool.noConfusion hpred
    · rw [goodPath_no_strict_desc hget (Or.inr hpred) z hzp hgz] at hanc
      exact Bool.noConfusion hanc
  · intro hl hp
    have hmc : matchCond t.nodes pred p = true := matchCond_intro hgp hget hl hp
    have hpos : p ∈ t.findPositions pred := by
      rw [findPositions_eq]
      simp only [List.mem_filter, List.mem_range]
      exact ⟨hpL, hmc⟩
    refine ⟨hpos, ?_⟩
    unfold SBT.find
    rw [List.mem_filterMap]
    exact ⟨p, hpos, hget⟩

/-- Witness for C2 at a concrete two-leaf tree: position 1 (Leaf "a",
accepted by `containsOne`) is visited and indeed included in the result. -/
theorem sbt_find_prune_include_witness :
    (1 ∈ (insertLeaves [PNode.mkLeaf "a" {1}, PNode.mkLeaf "b" {2}]).visitedSet
        containsOne
      ∧ nodeAt (insertLeaves [PNode.mkLeaf "a" {1}, PNode.mkLeaf "b" {2}]) 1
          = some (PNode.leaf "a" "a" {1})
      ∧ (PNode.leaf "a" "a" {1}).isLeaf = true
      ∧ containsOne (PNode.leaf "a" "a" {1}) = true)
    ∧ (1 ∈ (insertLeaves [PNode.mkLeaf "a" {1}, PNode.mkLeaf "b" {2}]).findPositions
        containsOne
      ∧ PNode.leaf "a" "a" {1}
          ∈ (insertLeaves [PNode.mkLeaf "a" {1}, PNode.mkLeaf "b" {2}]).find
              containsOne) :=
  ⟨⟨by decide, by decide, by decide, by decide⟩,
    (sbt_find_prune_include (insertLeaves [PNode.mkLeaf "a" {1}, PNode.mkLeaf "b" {2}])
        containsOne 1 (PNode.leaf "a" "a" {1}) (by decide) (by decide)).2
      (by decide) (by decide)⟩

/-- Modelled from the spec: the pre-order, left-then-right recursive descent
of §4.2 ("Recursive descent, deterministic pre-order, left-then-right"),
returning match positions; compared against the implemented traversal. -/
def specFindPreorderGo (nodes : List (Option PNode)) (pred : PNode → Bool) :
    ℕ → ℕ → List ℕ
  | 0, _ => []
  | fuel + 1, pos =>
    match nodes.getD pos none with
    | none => []
    | some n =>
      if pred n then
        if n.isLeaf then [pos]
        else specFindPreorderGo nodes pred fuel (2 * pos + 1)
          ++ specFindPreorderGo nodes pred fuel (2 * (pos + 1))
      else []

def specFindPreorder (t : SBT) (pred : PNode → Bool) : List ℕ :=
  specFindPreorderGo t.nodes pred t.nodes.length 0

/-- C6 counterexample: on the five-leaf tree the implemented `find` yields
positions `[4, 5, 6, 7, 8]` (leaves c, b, d, a, e) — breadth-first level
order — while the pre-order left-then-right traversal the claim describes
would yield `[7, 8, 4, 5, 6]` (leaves a, e, c, b, d). -/
theorem sbt_find_not_preorder_cx :
    (insertLeaves [PNode.mkLeaf "a" ∅, PNode.mkLeaf "b" ∅, PNode.mkLeaf "c" ∅,
        PNode.mkLeaf "d" ∅, PNode.mkLeaf "e" ∅]).findPositions (fun _ => true)
        = [4, 5, 6, 7, 8]
    ∧ specFindPreorder (insertLeaves [PNode.mkLeaf "a" ∅, PNode.mkLeaf "b" ∅,
        PNode.mkLeaf "c" ∅, PNode.mkLeaf "d" ∅, PNode.mkLeaf "e" ∅])
        (fun _ => true) = [7, 8, 4, 5, 6]
    ∧ ((insertLeaves [PNode.mkLeaf "a" ∅, PNode.mkLeaf "b" ∅, PNode.mkLeaf "c" ∅,
        PNode.mkLeaf "d" ∅, PNode.mkLeaf "e" ∅]).find (fun _ => true)).map
          PNode.identity = ["c", "b", "d", "a", "e"]
    ∧ (insertLeaves [PNode.mkLeaf "a" ∅, PNode.mkLeaf "b" ∅, PNode.mkLeaf "c" ∅,
        PNode.mkLeaf "d" ∅, PNode.mkLeaf "e" ∅]).findPositions (fun _ => true)
        ≠ specFindPreorder (insertLeaves [PNode.mkLeaf "a" ∅, PNode.mkLeaf "b" ∅,
            PNode.mkLeaf "c" ∅, PNode.mkLeaf "d" ∅, PNode.mkLeaf "e" ∅])
            (fun _ => true) := by
  refine ⟨by decide, by decide, by decide, by decide⟩

/-- C6 amended: `find` traverses breadth-first (FIFO queue, left child
before right), so the matches come back in strictly increasing heap-position
order — level order, not pre-order — and no position repeats. -/
theorem sbt_find_bfs_order (t : SBT) (pred : PNode → Bool) :
    t.findPositions pred
        = (List.range t.nodes.length).filter (matchCond t.nodes pred)
    ∧ List.Pairwise (· < ·) (t.findPositions pred)
    ∧ (t.findPositions pred).Nodup := by
  have hpw : List.Pairwise (· < ·) (t.findPositions pred) := by
    rw [findPositions_eq]
    exact (List.pairwise_lt_range _).filter _
  exact ⟨findPositions_eq t pred, hpw, hpw.imp (fun h => Nat.ne_of_lt h)⟩

/-! ### What one `add_node` call does to the array -/

lemma getD_set (l : List (Option PNode)) (i j : ℕ) (x : Option PNode) :
    (l.set i x).getD j none =
      if i = j ∧ i < l.length then x else l.getD j none := by
  by_cases hij : i = j
  · subst hij
    by_cases hlen : i < l.length
    · rw [if_pos ⟨rfl, hlen⟩, List.getD_eq_getD_get?, List.get?_set_eq_of_lt _ hlen]
      rfl
    · rw [if_neg (fun h => hlen h.2), List.getD_eq_default _ _ (by simpa using hlen),
        List.getD_eq_default _ _ (by omega)]
  · rw [if_neg (fun h => hij h.1), List.getD_eq_getD_get?,
      List.get?_set_ne _ _ hij, ← List.getD_eq_getD_get?]

lemma getD_append_replicate (l : List (Option PNode)) (k j : ℕ) :
    (l ++ List.replicate k none).getD j none = l.getD j none := by
  by_cases h : j < l.length
  · rw [List.getD_append _ _ _ _ h]
  · have hr : l.getD j none = none := List.getD_eq_default _ _ (by omega)
    rw [hr, List.getD_append_right _ _ _ _ (by omega)]
    by_cases h2 : j - l.length < k
    · rw [List.getD_eq_getElem _ _ (by simpa using h2)]
      simp
    · exact List.getD_eq_default _ _ (by simpa using h2)

lemma indexOfNone_eq_some (l : List (Option PNode)) (m : ℕ)
    (hpre : ∀ i, i < m → (l.getD i none).isSome = true)
    (hm : l.get? m = some none) :
    indexOfNone l = some m := by
  induction l generalizing m with
  | nil => exact absurd hm (by simp)
  | cons x rest ih =>
    cases m with
    | zero =>
      simp only [List.get?] at hm
      cases hm
      rfl
    | succ m =>
      have hx : x.isSome = true := by
        have := hpre 0 (by omega)
        simpa using this
      obtain ⟨a, rfl⟩ := Option.isSome_iff_exists.mp hx
      show (indexOfNone rest).map (· + 1) = some (m + 1)
      rw [ih m (fun i hi => by simpa using hpre (i + 1) (by omega)) (by simpa using hm)]
      rfl

lemma indexOfNone_eq_none (l : List (Option PNode))
    (hall : ∀ i, i < l.length → (l.getD i none).isSome = true) :
    indexOfNone l = none := by
  induction l with
  | nil => rfl
  | cons x rest ih =>
    have hx : x.isSome = true := by
      have := hall 0 (by simp)
      simpa using this
    obtain ⟨a, rfl⟩ := Option.isSome_iff_exists.mp hx
    show (indexOfNone rest).map (· + 1) = none
    rw [ih (fun i hi => by simpa using hall (i + 1) (by simp; omega))]
    rfl

lemma updateGraphAt_getD (nodes : List (Option PNode)) (i j : ℕ) (g : Finset ℕ) :
    (updateGraphAt nodes i g).getD j none =
      if i = j then (nodes.getD j none).map (fun n => n.withGraph (n.graph ∪ g))
      else nodes.getD j none := by
  unfold updateGraphAt
  cases hi : nodes.get? i with
  | none =>
    by_cases hij : i = j
    · subst hij
      rw [if_pos rfl, List.getD_eq_getD_get?, hi]
      rfl
    · rw [if_neg hij]
  | some o =>
    cases o with
    | none =>
      by_cases hij : i = j
      · subst hij
        rw [if_pos rfl, List.getD_eq_getD_get?, hi]
        rfl
      · rw [if_neg hij]
    | some n =>
      have hilen : i < nodes.length := by
        by_contra hge
        rw [List.get?_eq_none.mpr (by omega)] at hi
        exact Option.noConfusion hi
      rw [getD_set]
      by_cases hij : i = j
      · subst hij
        rw [if_pos ⟨rfl, hilen⟩, if_pos rfl, List.getD_eq_getD_get?, hi]
        rfl
      · rw [if_neg (fun h => hij h.1), if_neg hij]

lemma updateAncestorsGo_congr (g : Finset ℕ) :
    ∀ f1 f2 (nodes : List (Option PNode)) pos, pos ≤ f1 → pos ≤ f2 →
      updateAncestorsGo g f1 nodes pos = updateAncestorsGo g f2 nodes pos := by
  intro f1
  induction f1 with
  | zero =>
    intro f2 nodes pos h1 h2
    have hp : pos = 0 := by omega
    subst hp
    cases f2 with
    | zero => rfl
    | succ f2 => simp [updateAncestorsGo]
  | succ f1 ih =>
    intro f2 nodes pos h1 h2
    cases f2 with
    | zero =>
      have hp : pos = 0 := by omega
      subst hp
      simp [updateAncestorsGo]
    | succ f2 =>
      simp only [updateAncestorsGo]
      by_cases hp : pos = 0
      · simp [hp]
      · have hlt := parentPos_lt (Nat.pos_of_ne_zero hp)
        simp only [hp, if_false]
        exact ih f2 _ (parentPos pos) (by omega) (by omega)

/-- The while-loop unfolding of the ancestor update, fuel-independent. -/
lemma updateAncestors_eq (g : Finset ℕ) (nodes : List (Option PNode)) (pos : ℕ) :
    updateAncestors g nodes pos =
      if pos = 0 then nodes
      else updateAncestors g (updateGraphAt nodes (parentPos pos) g) (parentPos pos) := by
  by_cases h0 : pos = 0
  · subst h0
    rfl
  · rw [if_neg h0]
    obtain ⟨k, rfl⟩ : ∃ k, pos = k + 1 := ⟨pos - 1, by omega⟩
    have hp := parentPos_lt (show 0 < k + 1 by omega)
    show updateAncestorsGo g (k + 1) nodes (k + 1) = _
    simp only [updateAncestorsGo, h0, if_false]
    exact updateAncestorsGo_congr g k (parentPos (k + 1)) _ (parentPos (k + 1))
      (by omega) le_rfl

/-- The ancestor-update loop unions `g` into exactly the strict ancestors of
`pos`, leaving every other slot untouched. -/
lemma updateAncestors_getD (g : Finset ℕ) :
    ∀ (pos : ℕ) (nodes : List (Option PNode)) (j : ℕ),
      (updateAncestors g nodes pos).getD j none =
        if ancB j pos = true ∧ j ≠ pos
        then (nodes.getD j none).map (fun n => n.withGraph (n.graph ∪ g))
        else nodes.getD j none := by
  intro pos
  induction pos using Nat.strong_induction_on with
  | _ pos ih =>
    intro nodes j
    rw [updateAncestors_eq]
    by_cases h0 : pos = 0
    · subst h0
      rw [if_pos rfl, if_neg ?_]
      rintro ⟨ha, hne⟩
      exact hne ((ancB_zero_iff rfl).mp ha)
    · rw [if_neg h0]
      have hppos := parentPos_lt (Nat.pos_of_ne_zero h0)
      rw [ih (parentPos pos) hppos _ j, updateGraphAt_getD]
      by_cases hjpp : j = parentPos pos
      · subst hjpp
        have hanc : ancB (parentPos pos) pos = true := by
          rw [ancB_of_ne (by omega) h0]
          exact ancB_refl _
        rw [if_neg (fun h => h.2 rfl), if_pos rfl, if_pos ⟨hanc, by omega⟩]
      · rw [if_neg (Ne.symm hjpp)]
        by_cases hjpos : j = pos
        · subst hjpos
          rw [if_neg ?_, if_neg (fun h => h.2 rfl)]
          rintro ⟨ha, _⟩
          have := ancB_le ha
          omega
        · have hcond : (ancB j pos = true ∧ j ≠ pos) ↔
              (ancB j (parentPos pos) = true ∧ j ≠ parentPos pos) := by
            rw [ancB_of_ne (Ne.symm hjpos) h0]
            constructor
            · rintro ⟨ha, _⟩
              exact ⟨ha, hjpp⟩
            · rintro ⟨ha, _⟩
              exact ⟨ha, hjpos⟩
          by_cases hc : ancB j (parentPos pos) = true ∧ j ≠ parentPos pos
          · rw [if_pos hc, if_pos (hcond.mpr hc)]
          · rw [if_neg hc, if_neg (fun h => hc (hcond.mp h))]

lemma PNode.withGraph_isNode (n : PNode) (g : Finset ℕ) :
    (n.withGraph g).isNode = n.isNode := by cases n <;> rfl

lemma PNode.withGraph_isLeaf (n : PNode) (g : Finset ℕ) :
    (n.withGraph g).isLeaf = n.isLeaf := by cases n <;> rfl

lemma PNode.withGraph_graph (n : PNode) (g : Finset ℕ) :
    (n.withGraph g).graph = n.graph ∪ g := by cases n <;> rfl

lemma updateGraphAt_length (nodes : List (Option PNode)) (i : ℕ) (g : Finset ℕ) :
    (updateGraphAt nodes i g).length = nodes.length := by
  unfold updateGraphAt
  cases nodes.get? i with
  | none => rfl
  | some o =>
    cases o with
    | none => rfl
    | some n => exact List.length_set _ _ _

lemma updateAncestorsGo_length (g : Finset ℕ) :
    ∀ (f : ℕ) (nodes : List (Option PNode)) (pos : ℕ),
      (updateAncestorsGo g f nodes pos).length = nodes.length := by
  intro f
  induction f with
  | zero => intro nodes pos; rfl
  | succ f ih =>
    intro nodes pos
    show (if pos = 0 then nodes else _).length = _
    by_cases h0 : pos = 0
    · rw [if_pos h0]
    · rw [if_neg h0, ih, updateGraphAt_length]

lemma updateAncestors_length (g : Finset ℕ) (nodes : List (Option PNode)) (pos : ℕ) :
    (updateAncestors g nodes pos).length = nodes.length :=
  updateAncestorsGo_length g pos nodes pos

/-- Is the slot at `i` an internal (`Node`) object? -/
def isInternalAt (t : SBT) (i : ℕ) : Bool :=
  ((nodeAt t i).map PNode.isNode).getD false

/-- Invariant of every tree grown by `add_node` from the empty tree:
the array length is `2^(k+1) - 1`; the occupied slots form a prefix whose
length `m` is odd (or zero); a slot holds an internal node exactly when its
children lie inside the occupied prefix (so internal nodes have two
children and the slots past the prefix's parents hold Leaves); and every
node's bit table is contained in the bit table of each of its ancestors. -/
structure SBTInv (t : SBT) (m : ℕ) : Prop where
  hlen : ∃ k, t.nodes.length + 1 = 2 ^ (k + 1)
  hm : m ≤ t.nodes.length
  hodd : m = 0 ∨ m % 2 = 1
  hfill : ∀ i, i < m ↔ (nodeAt t i).isSome = true
  hshape : ∀ i, i < m → (isInternalAt t i = true ↔ 2 * i + 1 < m)
  hgraph : ∀ i, i < m → ∀ a, a ≠ i → ancB a i = true → graphAt t i ⊆ graphAt t a

lemma SBTInv.len_odd {t : SBT} {m : ℕ} (hI : SBTInv t m) : t.nodes.length % 2 = 1 := by
  obtain ⟨k, hk⟩ := hI.hlen
  have h2 : 2 ^ (k + 1) = 2 * 2 ^ k := by ring
  omega

lemma SBTInv.len_pos {t : SBT} {m : ℕ} (hI : SBTInv t m) : 1 ≤ t.nodes.length := by
  obtain ⟨k, hk⟩ := hI.hlen
  have h1 : 1 ≤ 2 ^ k := Nat.one_le_two_pow
  have h2 : 2 ^ (k + 1) = 2 * 2 ^ k := by ring
  omega

lemma nodeAt_none_of_inv {t : SBT} {m i : ℕ} (hI : SBTInv t m) (hi : m ≤ i) :
    nodeAt t i = none := by
  cases hn : nodeAt t i with
  | none => rfl
  | some x =>
    have := (hI.hfill i).mpr (by rw [hn]; rfl)
    omega

lemma get?_of_getD_none {l : List (Option PNode)} {i : ℕ} (hlt : i < l.length)
    (h : l.getD i none = none) : l.get? i = some none := by
  rw [List.get?_eq_getElem?, List.getElem?_eq_getElem hlt,
    ← List.getD_eq_getElem l none hlt, h]

lemma indexOfNone_of_inv {t : SBT} {m : ℕ} (hI : SBTInv t m) :
    indexOfNone t.nodes = if m < t.nodes.length then some m else none := by
  by_cases hlt : m < t.nodes.length
  · rw [if_pos hlt]
    exact indexOfNone_eq_some t.nodes m (fun i hi => (hI.hfill i).mp hi)
      (get?_of_getD_none hlt (nodeAt_none_of_inv hI le_rfl))
  · rw [if_neg hlt]
    exact indexOfNone_eq_none t.nodes
      (fun i hi => (hI.hfill i).mp (by omega))

/-- What one `add_node` call does on a non-empty invariant tree: the first
free slot is `m`, its parent slot holds a Leaf; that slot is replaced by a
fresh internal node (the union of the old Leaf's and the new node's
filters), the old Leaf moves to the left child slot `m`, the new node lands
in the right child slot `m + 1`, and every strict ancestor's filter is
unioned with the new node's filter.  Nothing else changes. -/
lemma add_node_desc {t : SBT} {m : ℕ} (hI : SBTInv t m) (hm1 : 1 ≤ m) (L : PNode) :
    ∃ md nm g₀,
      nodeAt t (parentPos m) = some (PNode.leaf md nm g₀) ∧
      (((t.add_node L).nodes.length = t.nodes.length ∧ m + 1 < t.nodes.length) ∨
        ((t.add_node L).nodes.length = 2 * t.nodes.length + 1 ∧ m = t.nodes.length)) ∧
      (∀ j, nodeAt (t.add_node L) j =
        if j = parentPos m then
          some (PNode.node (g₀ ∪ L.graph) ("internal." ++ toString (parentPos m)))
        else if j = m then some (PNode.leaf md nm g₀)
        else if j = m + 1 then some L
        else if ancB j (parentPos m) = true ∧ j ≠ parentPos m then
          (nodeAt t j).map (fun nd => nd.withGraph (nd.graph ∪ L.graph))
        else nodeAt t j) := by
  have hmodd : m % 2 = 1 := by
    rcases hI.hodd with h | h
    · omega
    · exact h
  have hppm : parentPos m < m := parentPos_lt (by omega)
  have hpp1 : 2 * parentPos m + 1 = m := by
    unfold parentPos
    omega
  have hpp2 : 2 * (parentPos m + 1) = m + 1 := by omega
  have hlodd := hI.len_odd
  have hlpos := hI.len_pos
  -- the parent slot holds a Leaf
  obtain ⟨n, hn⟩ := Option.isSome_iff_exists.mp ((hI.hfill (parentPos m)).mp hppm)
  have hnotint : isInternalAt t (parentPos m) = false := by
    cases hb : isInternalAt t (parentPos m) with
    | false => rfl
    | true =>
      have := (hI.hshape (parentPos m) hppm).mp hb
      omega
  obtain ⟨md, nm, g₀, rfl⟩ : ∃ md nm g₀, n = PNode.leaf md nm g₀ := by
    cases n with
    | node g nmm =>
      unfold isInternalAt at hnotint
      rw [hn] at hnotint
      exact absurd hnotint (by simp [PNode.isNode])
    | leaf md nmm g => exact ⟨md, nmm, g, rfl⟩
  -- unfold the insertion; two cases on whether the array is full
  obtain ⟨ns, hlenfact, hns_big, hns_get, hstep⟩ :
      ∃ ns : List (Option PNode),
        ((ns.length = t.nodes.length ∧ m + 1 < t.nodes.length) ∨
          (ns.length = 2 * t.nodes.length + 1 ∧ m = t.nodes.length)) ∧
        m + 1 < ns.length ∧
        (∀ j, ns.getD j none = nodeAt t j) ∧
        t.add_node L =
          ⟨updateAncestors L.graph
            (((ns.set (parentPos m)
                (some (PNode.node (g₀ ∪ L.graph)
                  ("internal." ++ toString (parentPos m))))).set
              (2 * parentPos m + 1) (some (PNode.leaf md nm g₀))).set
              (2 * (parentPos m + 1)) (some L))
            (parentPos m)⟩ := by
    by_cases hmlt : m < t.nodes.length
    · have hidx : indexOfNone t.nodes = some m := by
        rw [indexOfNone_of_inv hI, if_pos hmlt]
      have hm1lt : m + 1 < t.nodes.length := by omega
      refine ⟨t.nodes, Or.inl ⟨rfl, hm1lt⟩, hm1lt, fun j => rfl, ?_⟩
      unfold SBT.add_node
      simp only [hidx]
      rw [if_neg (by omega : ¬ m = 0)]
      have hgetpp : t.nodes.getD (parentPos m) none
          = some (PNode.leaf md nm g₀) := hn
      rw [hgetpp]
    · have hmeq : m = t.nodes.length := by
        have := hI.hm
        omega
      have hidx : indexOfNone t.nodes = none := by
        rw [indexOfNone_of_inv hI, if_neg hmlt]
      refine ⟨t.nodes ++ List.replicate (t.nodes.length + 1) none,
        Or.inr ⟨by simp; omega, hmeq⟩, by simp; omega,
        fun j => getD_append_replicate _ _ _, ?_⟩
      unfold SBT.add_node
      simp only [hidx]
      rw [if_neg (by omega : ¬ t.nodes.length = 0)]
      have hgetpp : (t.nodes ++ List.replicate (t.nodes.length + 1) none).getD
          (parentPos t.nodes.length) none = some (PNode.leaf md nm g₀) := by
        rw [getD_append_replicate]
        rw [← hmeq]
        exact hn
      rw [hgetpp, hmeq]
  refine ⟨md, nm, g₀, hn, ?_, ?_⟩
  · rw [hstep]
    simp only [updateAncestors_length, List.length_set]
    exact hlenfact
  · intro j
    have hppns : parentPos m < ns.length := by omega
    have hmns : m < ns.length := by omega
    have hm1ns : m + 1 < ns.length := hns_big
    have hns3 : ∀ jj,
        ((((ns.set (parentPos m)
            (some (PNode.node (g₀ ∪ L.graph)
              ("internal." ++ toString (parentPos m))))).set
          (2 * parentPos m + 1) (some (PNode.leaf md nm g₀))).set
          (2 * (parentPos m + 1)) (some L)).getD jj none)
        = if jj = m + 1 then some L
          else if jj = m then some (PNode.leaf md nm g₀)
          else if jj = parentPos m then
            some (PNode.node (g₀ ∪ L.graph)
              ("internal." ++ toString (parentPos m)))
          else nodeAt t jj := by
      intro jj
      rw [getD_set, getD_set, getD_set]
      simp only [List.length_set]
      by_cases h1 : jj = m + 1
      · rw [if_pos ⟨by omega, by omega⟩, if_pos h1]
      · rw [if_neg (by omega), if_neg h1]
        by_cases h2 : jj = m
        · rw [if_pos ⟨by omega, by omega⟩, if_pos h2]
        · rw [if_neg (by omega), if_neg h2]
          by_cases h3 : jj = parentPos m
          · rw [if_pos ⟨by omega, by omega⟩, if_pos h3]
          · rw [if_neg (by omega), if_neg h3]
            exact hns_get jj
    rw [hstep]
    show (updateAncestors _ _ _).getD j none = _
    rw [updateAncestors_getD, hns3 j]
    by_cases hjpp : j = parentPos m
    · subst hjpp
      rw [if_neg (fun h => h.2 rfl), if_neg (by omega), if_neg (by omega),
        if_pos rfl, if_pos rfl]
    · by_cases hjm : j = m
      · have hancf : ancB j (parentPos m) = false := by
          by_contra hx
          have := ancB_le (by simpa using hx)
          omega
        rw [if_neg (by rw [hancf]; rintro ⟨h, _⟩; exact Bool.noConfusion h),
          if_neg (by omega), if_pos hjm, if_neg hjpp, if_pos hjm]
      · by_cases hjm1 : j = m + 1
        · have hancf : ancB j (parentPos m) = false := by
            by_contra hx
            have := ancB_le (by simpa using hx)
            omega
          rw [if_neg (by rw [hancf]; rintro ⟨h, _⟩; exact Bool.noConfusion h),
            if_pos hjm1, if_neg hjpp, if_neg hjm, if_pos hjm1]
        · by_cases hanc : ancB j (parentPos m) = true ∧ j ≠ parentPos m
          · have hjlt : j < parentPos m := by
              have := ancB_le hanc.1
              rcases Nat.lt_or_ge j (parentPos m) with h | h
              · exact h
              · exact absurd (Nat.le_antisymm this h) hanc.2
            rw [if_pos hanc, if_neg hjm1, if_neg hjm, if_neg hjpp,
              if_neg hjpp, if_neg hjm, if_neg hjm1, if_pos hanc]
          · rw [if_neg hanc, if_neg hjm1, if_neg hjm, if_neg hjpp,
              if_neg hjpp, if_neg hjm, if_neg hjm1, if_neg hanc]

lemma PNode.isNode_eq_false {L : PNode} (hL : L.isLeaf = true) : L.isNode = false := by
  cases L with
  | node g nm => exact absurd hL (by simp [PNode.isLeaf])
  | leaf md nm g => rfl

/-- Inserting a Leaf preserves the tree invariant, growing the occupied
prefix from `m` to `m + 2` (or to `1` on the empty tree). -/
lemma inv_add_node {t : SBT} {m : ℕ} (hI : SBTInv t m) (L : PNode)
    (hL : L.isLeaf = true) :
    SBTInv (t.add_node L) (if m = 0 then 1 else m + 2) := by
  by_cases hm0 : m = 0
  · subst hm0
    rw [if_pos rfl]
    have hlpos := hI.len_pos
    have hidx : indexOfNone t.nodes = some 0 := by
      rw [indexOfNone_of_inv hI, if_pos (by omega)]
    have hT : t.add_node L = ⟨t.nodes.set 0 (some L)⟩ := by
      unfold SBT.add_node
      simp only [hidx]
      simp
    have hget : ∀ j, nodeAt (t.add_node L) j =
        if j = 0 then some L else nodeAt t j := by
      intro j
      rw [hT]
      show (t.nodes.set 0 (some L)).getD j none = _
      rw [getD_set]
      by_cases hj : j = 0
      · rw [if_pos ⟨hj.symm, by omega⟩, if_pos hj]
      · rw [if_neg (fun h => hj h.1.symm), if_neg hj]
        rfl
    refine ⟨?_, ?_, Or.inr rfl, ?_, ?_, ?_⟩
    · obtain ⟨k, hk⟩ := hI.hlen
      exact ⟨k, by rw [hT]; simpa using hk⟩
    · rw [hT]
      simpa using hlpos
    · intro i
      rw [hget i]
      by_cases hi : i = 0
      · subst hi
        simp
      · rw [if_neg hi]
        have : ¬ ((nodeAt t i).isSome = true) := fun h => by
          have := (hI.hfill i).mpr h
          omega
      -- old slots are all empty, and i < 1 fails for i ≠ 0
        constructor
        · intro h
          omega
        · intro h
          exact absurd h this
    · intro i hi
      have hi0 : i = 0 := by omega
      subst hi0
      unfold isInternalAt
      rw [hget 0, if_pos rfl]
      simp [PNode.isNode_eq_false hL]
    · intro i hi a hne hanc
      have hi0 : i = 0 := by omega
      subst hi0
      exact absurd ((ancB_zero_iff rfl).mp hanc) hne
  · rw [if_neg hm0]
    obtain ⟨md, nm, g₀, hppn, hlen3, hT⟩ := add_node_desc hI (by omega) L
    have hmodd : m % 2 = 1 := by
      rcases hI.hodd with h | h
      · omega
      · exact h
    have hppm : parentPos m < m := parentPos_lt (by omega)
    have hpp1 : 2 * parentPos m + 1 = m := by
      unfold parentPos
      omega
    have hlpos := hI.len_pos
    have hgtpp : graphAt t (parentPos m) = g₀ := by
      unfold graphAt
      rw [hppn]
      rfl
    -- region classification for a position
    have hfill_old : ∀ j, ancB j (parentPos m) = true → j ≠ parentPos m →
        ∃ nd, nodeAt t j = some nd := by
      intro j hj hne
      have hjlt : j < m := by
        have := ancB_le hj
        omega
      exact Option.isSome_iff_exists.mp ((hI.hfill j).mp hjlt)
    have hganc : ∀ j, ancB j (parentPos m) = true → j ≠ parentPos m →
        graphAt (t.add_node L) j = graphAt t j ∪ L.graph := by
      intro j hj hne
      have hjle := ancB_le hj
      unfold graphAt
      rw [hT j, if_neg hne, if_neg (by omega), if_neg (by omega), if_pos ⟨hj, hne⟩]
      obtain ⟨nd, hnd⟩ := hfill_old j hj hne
      rw [hnd]
      simp [PNode.withGraph_graph]
    have hgelse : ∀ j, j ≠ parentPos m → j ≠ m → j ≠ m + 1 →
        ¬(ancB j (parentPos m) = true ∧ j ≠ parentPos m) →
        nodeAt (t.add_node L) j = nodeAt t j := by
      intro j h1 h2 h3 h4
      rw [hT j, if_neg h1, if_neg h2, if_neg h3, if_neg h4]
    have hgpp : graphAt (t.add_node L) (parentPos m) = g₀ ∪ L.graph := by
      unfold graphAt
      rw [hT (parentPos m), if_pos rfl]
      rfl
    have hgm : graphAt (t.add_node L) m = g₀ := by
      unfold graphAt
      rw [hT m, if_neg (by omega), if_pos rfl]
      rfl
    have hgm1 : graphAt (t.add_node L) (m + 1) = L.graph := by
      unfold graphAt
      rw [hT (m + 1), if_neg (by omega), if_neg (by omega), if_pos rfl]
      rfl
    refine ⟨?_, ?_, Or.inr (by omega), ?_, ?_, ?_⟩
    · obtain ⟨k, hk⟩ := hI.hlen
      rcases hlen3 with ⟨heq, _⟩ | ⟨heq, _⟩
      · exact ⟨k, by rw [heq]; exact hk⟩
      · refine ⟨k + 1, ?_⟩
        rw [heq]
        have : 2 ^ (k + 1 + 1) = 2 * 2 ^ (k + 1) := by ring
        omega
    · rcases hlen3 with ⟨heq, hlt⟩ | ⟨heq, hmeq⟩
      · omega
      · omega
    · intro i
      by_cases h1 : i = parentPos m
      · subst h1
        rw [hT _, if_pos rfl]
        exact ⟨fun _ => rfl, fun _ => by omega⟩
      by_cases h2 : i = m
      · subst h2
        rw [hT _, if_neg h1, if_pos rfl]
        exact ⟨fun _ => rfl, fun _ => by omega⟩
      by_cases h3 : i = m + 1
      · subst h3
        rw [hT _, if_neg h1, if_neg h2, if_pos rfl]
        exact ⟨fun _ => rfl, fun _ => by omega⟩
      by_cases h4 : ancB i (parentPos m) = true ∧ i ≠ parentPos m
      · rw [hT _, if_neg h1, if_neg h2, if_neg h3, if_pos h4]
        obtain ⟨nd, hnd⟩ := hfill_old i h4.1 h4.2
        rw [hnd]
        have := ancB_le h4.1
        exact ⟨fun _ => rfl, fun _ => by omega⟩
      · rw [hT _, if_neg h1, if_neg h2, if_neg h3, if_neg h4]
        rw [← hI.hfill i]
        omega
    · intro i hi
      unfold isInternalAt
      by_cases h1 : i = parentPos m
      · subst h1
        rw [hT _, if_pos rfl]
        exact ⟨fun _ => by omega, fun _ => rfl⟩
      by_cases h2 : i = m
      · subst h2
        rw [hT _, if_neg h1, if_pos rfl]
        exact ⟨fun h => Bool.noConfusion h, fun h => absurd h (by omega)⟩
      by_cases h3 : i = m + 1
      · subst h3
        rw [hT _, if_neg h1, if_neg h2, if_pos rfl]
        simp only [Option.map_some', Option.getD_some, PNode.isNode_eq_false hL]
        exact ⟨fun h => Bool.noConfusion h, fun h => absurd h (by omega)⟩
      by_cases h4 : ancB i (parentPos m) = true ∧ i ≠ parentPos m
      · rw [hT _, if_neg h1, if_neg h2, if_neg h3, if_pos h4]
        obtain ⟨nd, hnd⟩ := hfill_old i h4.1 h4.2
        have hile : i ≤ parentPos m := ancB_le h4.1
        have hilt : i < parentPos m := by omega
        have hold := hI.hshape i (by omega)
        unfold isInternalAt at hold
        rw [hnd] at hold ⊢
        simp only [Option.map_some', Option.getD_some, PNode.withGraph_isNode] at hold ⊢
        rw [hold]
        omega
      · rw [hT _, if_neg h1, if_neg h2, if_neg h3, if_neg h4]
        have him : i < m := by omega
        have hold := hI.hshape i him
        unfold isInternalAt at hold
        rw [hold]
        have hne1 : 2 * i + 1 ≠ m := by
          intro hcv
          apply h1
          unfold parentPos
          omega
        omega
    · intro i hi a hne hanc
      have hale : a ≤ i := ancB_le hanc
      have halt : a < i := by omega
      by_cases h2 : i = m
      · rw [h2] at hanc hne ⊢
        rw [hgm]
        have hanc' : ancB a (parentPos m) = true := by
          rw [ancB_of_ne (Ne.symm hne) (by omega)] at hanc
          exact hanc
        by_cases hap : a = parentPos m
        · subst hap
          rw [hgpp]
          exact Finset.subset_union_left
        · rw [hganc a hanc' hap]
          have hold : graphAt t (parentPos m) ⊆ graphAt t a :=
            hI.hgraph (parentPos m) hppm a hap hanc'
          rw [hgtpp] at hold
          exact hold.trans Finset.subset_union_left
      by_cases h3 : i = m + 1
      · rw [h3] at hanc hne ⊢
        rw [hgm1]
        have hpm1 : parentPos (m + 1) = parentPos m := by
          unfold parentPos
          omega
        have hanc' : ancB a (parentPos m) = true := by
          rw [ancB_of_ne (Ne.symm hne) (by omega), hpm1] at hanc
          exact hanc
        by_cases hap : a = parentPos m
        · subst hap
          rw [hgpp]
          exact Finset.subset_union_right
        · rw [hganc a hanc' hap]
          exact Finset.subset_union_right
      by_cases h1 : i = parentPos m
      · rw [h1] at hanc hne ⊢
        rw [hgpp]
        rw [hganc a hanc hne]
        have hold : graphAt t (parentPos m) ⊆ graphAt t a :=
          hI.hgraph (parentPos m) hppm a hne hanc
        rw [hgtpp] at hold
        exact Finset.union_subset_union hold (Finset.Subset.refl _)
      by_cases h4 : ancB i (parentPos m) = true ∧ i ≠ parentPos m
      · have hilt : i < parentPos m := by
          have := ancB_le h4.1
          omega
        rw [hganc i h4.1 h4.2]
        have happ : ancB a (parentPos m) = true := ancB_trans hanc h4.1
        have hanep : a ≠ parentPos m := by
          intro hcv
          subst hcv
          exact h4.2 (ancB_antisymm h4.1 hanc)
        rw [hganc a happ hanep]
        exact Finset.union_subset_union
          (hI.hgraph i (by omega) a hne hanc) (Finset.Subset.refl _)
      · have him : i < m := by omega
        have hTi : nodeAt (t.add_node L) i = nodeAt t i :=
          hgelse i h1 h2 h3 h4
        have hgi : graphAt (t.add_node L) i = graphAt t i := by
          unfold graphAt
          rw [hTi]
        rw [hgi]
        by_cases hap : a = parentPos m
        · subst hap
          have : 2 * parentPos m + 1 ≤ i := ancB_strict_lb hanc (Ne.symm hne)
          omega
        · by_cases hancp : ancB a (parentPos m) = true
          · rw [hganc a hancp hap]
            exact (hI.hgraph i him a hne hanc).trans Finset.subset_union_left
          · have hTa : nodeAt (t.add_node L) a = nodeAt t a := by
              apply hgelse a hap (by omega) (by omega)
              intro hcv
              exact hancp hcv.1
            have hga : graphAt (t.add_node L) a = graphAt t a := by
              unfold graphAt
              rw [hTa]
            rw [hga]
            exact hI.hgraph i him a hne hanc

lemma inv_empty : SBTInv SBT.empty 0 := by
  refine ⟨⟨0, rfl⟩, by simp [SBT.empty], Or.inl rfl, ?_, ?_, ?_⟩
  · intro i
    constructor
    · omega
    · intro h
      have : nodeAt SBT.empty i = none := by
        unfold nodeAt SBT.empty
        cases i with
        | zero => rfl
        | succ k => rfl
      rw [this] at h
      exact Bool.noConfusion h
  · intro i hi
    omega
  · intro i hi
    omega

lemma reachable_inv {t : SBT} (h : Reachable t) : ∃ m, SBTInv t m := by
  obtain ⟨ls, hls, rfl⟩ := h
  unfold insertLeaves
  have main : ∀ (ls' : List PNode), (∀ n ∈ ls', n.isLeaf = true) →
      ∀ (t0 : SBT) (m0 : ℕ), SBTInv t0 m0 →
        ∃ m', SBTInv (ls'.foldl SBT.add_node t0) m' := by
    intro ls'
    induction ls' with
    | nil => exact fun _ t0 m0 h0 => ⟨m0, h0⟩
    | cons x rest ih =>
      intro hall t0 m0 h0
      exact ih (fun n hn => hall n (List.mem_cons_of_mem _ hn)) _ _
        (inv_add_node h0 x (hall x (List.mem_cons_self _ _)))
  exact main ls hls SBT.empty 0 inv_empty

/-- C1: union monotonicity.  In every tree built from the empty tree by
repeated insertion of Leaves, whenever the Leaf stored at position `i`
reports element `e` present, every ancestor position `a` holds a node whose
filter also reports `e` present — after every insertion, since the statement
quantifies over all insertion sequences. -/
theorem sbt_union_monotone (ls : List PNode) (hls : ∀ n ∈ ls, n.isLeaf = true)
    (i a : ℕ) (md nm : String) (g : Finset ℕ)
    (hi : nodeAt (insertLeaves ls) i = some (PNode.leaf md nm g))
    (ha : ancB a i = true) (hne : a ≠ i)
    (hs : ℕ → Finset ℕ) (e : ℕ) (he : reports hs g e) :
    ∃ nd, nodeAt (insertLeaves ls) a = some nd ∧ reports hs nd.graph e := by
  obtain ⟨m, hI⟩ := reachable_inv ⟨ls, hls, rfl⟩
  have him : i < m := (hI.hfill i).mpr (by rw [hi]; rfl)
  have ham : a < m := by
    have := ancB_le ha
    omega
  obtain ⟨nd, hnd⟩ := Option.isSome_iff_exists.mp ((hI.hfill a).mp ham)
  refine ⟨nd, hnd, ?_⟩
  have hsub := hI.hgraph i him a hne ha
  have hgi : graphAt (insertLeaves ls) i = g := by
    unfold graphAt
    rw [hi]
    rfl
  have hga : graphAt (insertLeaves ls) a = nd.graph := by
    unfold graphAt
    rw [hnd]
    rfl
  rw [hgi, hga] at hsub
  exact Finset.Subset.trans he hsub

/-- Witness for C1: in the two-leaf tree, leaf "a" at position 1 reports
element 1 present (ideal single-bit hashing), and so does the root. -/
theorem sbt_union_monotone_witness :
    (nodeAt (insertLeaves [PNode.mkLeaf "a" {1}, PNode.mkLeaf "b" {2}]) 1
        = some (PNode.leaf "a" "a" {1})
      ∧ ancB 0 1 = true ∧ reports (fun e => {e}) {1} 1)
    ∧ ∃ nd, nodeAt (insertLeaves [PNode.mkLeaf "a" {1}, PNode.mkLeaf "b" {2}]) 0
        = some nd ∧ reports (fun e => {e}) nd.graph 1 :=
  ⟨⟨by decide, by decide, by decide⟩,
    sbt_union_monotone [PNode.mkLeaf "a" {1}, PNode.mkLeaf "b" {2}] (by decide)
      1 0 "a" "a" {1} (by decide) (by decide) (by decide)
      (fun e => {e}) 1 (by decide)⟩

/-- C7: every internal node of a tree built by insertion has both child
slots occupied, and a tree with exactly one inserted leaf is that Leaf at
the root with no internal wrapper (the array is just `[leaf]`). -/
theorem sbt_shape_invariant :
    (∀ t : SBT, Reachable t → ∀ i g nm,
      nodeAt t i = some (PNode.node g nm) →
        (nodeAt t (2 * i + 1)).isSome = true
          ∧ (nodeAt t (2 * i + 2)).isSome = true)
    ∧ (∀ l : PNode, l.isLeaf = true →
        insertLeaves [l] = ⟨[some l]⟩) := by
  constructor
  · intro t hR i g nm hi
    obtain ⟨m, hI⟩ := reachable_inv hR
    have him : i < m := (hI.hfill i).mpr (by rw [hi]; rfl)
    have hint : isInternalAt t i = true := by
      unfold isInternalAt
      rw [hi]
      rfl
    have hc := (hI.hshape i him).mp hint
    have hmodd : m % 2 = 1 := by
      rcases hI.hodd with h | h
      · omega
      · exact h
    have hc2 : 2 * i + 2 < m := by omega
    exact ⟨(hI.hfill _).mp hc, (hI.hfill _).mp hc2⟩
  · intro l hl
    rfl

/-- Witness for C7 at concrete trees. -/
theorem sbt_shape_invariant_witness :
    ((nodeAt (insertLeaves [PNode.mkLeaf "a" {1}, PNode.mkLeaf "b" {2}]) 1).isSome
        = true
      ∧ (nodeAt (insertLeaves [PNode.mkLeaf "a" {1}, PNode.mkLeaf "b" {2}]) 2).isSome
        = true)
    ∧ insertLeaves [PNode.mkLeaf "a" {1}]
        = ⟨[some (PNode.leaf "a" "a" {1})]⟩ :=
  ⟨sbt_shape_invariant.1 (insertLeaves [PNode.mkLeaf "a" {1}, PNode.mkLeaf "b" {2}])
      ⟨[PNode.mkLeaf "a" {1}, PNode.mkLeaf "b" {2}], by decide, rfl⟩
      0 ({1} ∪ {2}) "internal.0" (by decide),
    sbt_shape_invariant.2 (PNode.mkLeaf "a" {1}) (by decide)⟩

/-- C10: on every non-empty tree built by insertion, the parent of the
first free slot holds a Leaf — so the `isinstance(p.node, Leaf)` branch is
always taken, the commented-out internal-parent fall-through (which would
drop the node) is unreachable, and the inserted leaf really lands in the
tree (in the right child slot of that parent). -/
theorem sbt_add_node_parent_leaf (t : SBT) (L : PNode) (hR : Reachable t)
    (hL : L.isLeaf = true) (hne : (nodeAt t 0).isSome = true) :
    (∃ md nm g, nodeAt t (parentPos (firstFreePos t)) = some (PNode.leaf md nm g))
    ∧ nodeAt (t.add_node L) (2 * parentPos (firstFreePos t) + 2) = some L := by
  obtain ⟨m, hI⟩ := reachable_inv hR
  have hm1 : 1 ≤ m := (hI.hfill 0).mpr hne
  obtain ⟨md, nm, g₀, hpp, _, hT⟩ := add_node_desc hI hm1 L
  have hmodd : m % 2 = 1 := by
    rcases hI.hodd with h | h
    · omega
    · exact h
  have hff : firstFreePos t = m := by
    unfold firstFreePos
    rw [indexOfNone_of_inv hI]
    by_cases h : m < t.nodes.length
    · rw [if_pos h]
      rfl
    · rw [if_neg h]
      have := hI.hm
      show t.nodes.length = m
      omega
  rw [hff]
  refine ⟨⟨md, nm, g₀, hpp⟩, ?_⟩
  rw [hT (2 * parentPos m + 2)]
  have h22 : 2 * parentPos m + 2 = m + 1 := by
    unfold parentPos
    omega
  rw [if_neg (by omega), if_neg (by omega), if_pos h22]

/-- Witness for C10 on the two-leaf tree (array full, slot 3 is next). -/
theorem sbt_add_node_parent_leaf_witness :
    ((∃ md nm g, nodeAt (insertLeaves [PNode.mkLeaf "a" {1}, PNode.mkLeaf "b" {2}])
        (parentPos (firstFreePos
          (insertLeaves [PNode.mkLeaf "a" {1}, PNode.mkLeaf "b" {2}])))
        = some (PNode.leaf md nm g))
      ∧ nodeAt ((insertLeaves [PNode.mkLeaf "a" {1},
            PNode.mkLeaf "b" {2}]).add_node (PNode.mkLeaf "c" {3}))
          (2 * parentPos (firstFreePos
            (insertLeaves [PNode.mkLeaf "a" {1}, PNode.mkLeaf "b" {2}])) + 2)
        = some (PNode.mkLeaf "c" {3})) :=
  sbt_add_node_parent_leaf
    (insertLeaves [PNode.mkLeaf "a" {1}, PNode.mkLeaf "b" {2}])
    (PNode.mkLeaf "c" {3})
    ⟨[PNode.mkLeaf "a" {1}, PNode.mkLeaf "b" {2}], by decide, rfl⟩
    (by decide) (by decide)

/-- Number of Leaf slots in the subtree rooted at position `p`. -/
def leafCountIn (t : SBT) (p : ℕ) : ℕ :=
  ((List.range t.nodes.length).filter
    (fun z => ancB p z && ((nodeAt t z).map PNode.isLeaf).getD false)).length

/-- A five-leaf example tree. -/
def exTree5 : SBT :=
  insertLeaves [PNode.mkLeaf "a" ∅, PNode.mkLeaf "b" ∅, PNode.mkLeaf "c" ∅,
    PNode.mkLeaf "d" ∅, PNode.mkLeaf "e" ∅]

/-- C4 counterexample: after five insertions the root's left subtree holds
3 leaves and the right subtree 2, yet the sixth insertion attaches the new
leaf at position 10 — inside the *heavier* left subtree — so `add_node`
does not select the child with the smaller leaf count (it consults no leaf
counts at all: the slot is dictated by the first empty array position). -/
theorem sbt_insert_weight_cx :
    leafCountIn exTree5 1 = 3
    ∧ leafCountIn exTree5 2 = 2
    ∧ nodeAt (exTree5.add_node (PNode.mkLeaf "f" ∅)) 10
        = some (PNode.mkLeaf "f" ∅)
    ∧ ancB 1 10 = true
    ∧ ancB 2 10 = false
    ∧ leafCountIn (exTree5.add_node (PNode.mkLeaf "f" ∅)) 1 = 4
    ∧ leafCountIn (exTree5.add_node (PNode.mkLeaf "f" ∅)) 2 = 2 := by
  refine ⟨by decide, by decide, by decide, by decide, by decide, by decide, by decide⟩

/-- C4 amended: insertion into a tree whose root is internal ignores leaf
counts entirely.  The new leaf is placed at the first free array slot,
whose parent holds a Leaf; that Leaf is replaced by a new internal node
(filter = union of the two children's filters) with the old Leaf as left
child and the new leaf as right child, and the new leaf's filter is unioned
into every ancestor's filter on the path to the root. -/
theorem sbt_insert_first_free (t : SBT) (L : PNode) (hR : Reachable t)
    (hL : L.isLeaf = true)
    (hroot : ∃ g nm, nodeAt t 0 = some (PNode.node g nm)) :
    ∃ md nm g₀,
      nodeAt t (parentPos (firstFreePos t)) = some (PNode.leaf md nm g₀) ∧
      nodeAt (t.add_node L) (parentPos (firstFreePos t))
        = some (PNode.node (g₀ ∪ L.graph)
            ("internal." ++ toString (parentPos (firstFreePos t)))) ∧
      nodeAt (t.add_node L) (2 * parentPos (firstFreePos t) + 1)
        = some (PNode.leaf md nm g₀) ∧
      nodeAt (t.add_node L) (2 * parentPos (firstFreePos t) + 2) = some L ∧
      (∀ a, a ≠ parentPos (firstFreePos t) →
        ancB a (parentPos (firstFreePos t)) = true →
        nodeAt (t.add_node L) a
          = (nodeAt t a).map (fun nd => nd.withGraph (nd.graph ∪ L.graph))) := by
  obtain ⟨g, nm', hr⟩ := hroot
  obtain ⟨m, hI⟩ := reachable_inv hR
  have hm1 : 1 ≤ m := (hI.hfill 0).mpr (by rw [hr]; rfl)
  obtain ⟨md, nm, g₀, hpp, _, hT⟩ := add_node_desc hI hm1 L
  have hmodd : m % 2 = 1 := by
    rcases hI.hodd with h | h
    · omega
    · exact h
  have hppm : parentPos m < m := parentPos_lt (by omega)
  have hpp1 : 2 * parentPos m + 1 = m := by
    unfold parentPos
    omega
  have hff : firstFreePos t = m := by
    unfold firstFreePos
    rw [indexOfNone_of_inv hI]
    by_cases h : m < t.nodes.length
    · rw [if_pos h]
      rfl
    · rw [if_neg h]
      have := hI.hm
      show t.nodes.length = m
      omega
  rw [hff]
  refine ⟨md, nm, g₀, hpp, ?_, ?_, ?_, ?_⟩
  · rw [hT (parentPos m), if_pos rfl]
  · rw [hT (2 * parentPos m + 1), if_neg (by omega), if_pos hpp1]
  · rw [hT (2 * parentPos m + 2), if_neg (by omega), if_neg (by omega),
      if_pos (by omega)]
  · intro a hane hanc
    have hale := ancB_le hanc
    rw [hT a, if_neg hane, if_neg (by omega), if_neg (by omega),
      if_pos ⟨hanc, hane⟩]

/-- Witness for C4's amended statement on the full two-leaf tree: the next
slot is 3, its parent slot 1 holds Leaf "a", which gets wrapped into
`internal.1`, and the root's filter picks up the new leaf's bits. -/
theorem sbt_insert_first_free_witness :
    ∃ md nm g₀,
      nodeAt (insertLeaves [PNode.mkLeaf "a" {1}, PNode.mkLeaf "b" {2}])
        (parentPos (firstFreePos
          (insertLeaves [PNode.mkLeaf "a" {1}, PNode.mkLeaf "b" {2}])))
        = some (PNode.leaf md nm g₀) ∧
      nodeAt ((insertLeaves [PNode.mkLeaf "a" {1},
            PNode.mkLeaf "b" {2}]).add_node (PNode.mkLeaf "c" {3}))
          (parentPos (firstFreePos
            (insertLeaves [PNode.mkLeaf "a" {1}, PNode.mkLeaf "b" {2}])))
        = some (PNode.node (g₀ ∪ (PNode.mkLeaf "c" {3}).graph)
            ("internal." ++ toString (parentPos (firstFreePos
              (insertLeaves [PNode.mkLeaf "a" {1}, PNode.mkLeaf "b" {2}]))))) ∧
      nodeAt ((insertLeaves [PNode.mkLeaf "a" {1},
            PNode.mkLeaf "b" {2}]).add_node (PNode.mkLeaf "c" {3}))
          (2 * parentPos (firstFreePos
            (insertLeaves [PNode.mkLeaf "a" {1}, PNode.mkLeaf "b" {2}])) + 1)
        = some (PNode.leaf md nm g₀) ∧
      nodeAt ((insertLeaves [PNode.mkLeaf "a" {1},
            PNode.mkLeaf "b" {2}]).add_node (PNode.mkLeaf "c" {3}))
          (2 * parentPos (firstFreePos
            (insertLeaves [PNode.mkLeaf "a" {1}, PNode.mkLeaf "b" {2}])) + 2)
        = some (PNode.mkLeaf "c" {3}) ∧
      (∀ a, a ≠ parentPos (firstFreePos
            (insertLeaves [PNode.mkLeaf "a" {1}, PNode.mkLeaf "b" {2}])) →
        ancB a (parentPos (firstFreePos
          (insertLeaves [PNode.mkLeaf "a" {1}, PNode.mkLeaf "b" {2}]))) = true →
        nodeAt ((insertLeaves [PNode.mkLeaf "a" {1},
              PNode.mkLeaf "b" {2}]).add_node (PNode.mkLeaf "c" {3})) a
          = (nodeAt (insertLeaves [PNode.mkLeaf "a" {1}, PNode.mkLeaf "b" {2}]) a).map
              (fun nd => nd.withGraph (nd.graph ∪ (PNode.mkLeaf "c" {3}).graph))) :=
  sbt_insert_first_free
    (insertLeaves [PNode.mkLeaf "a" {1}, PNode.mkLeaf "b" {2}])
    (PNode.mkLeaf "c" {3})
    ⟨[PNode.mkLeaf "a" {1}, PNode.mkLeaf "b" {2}], by decide, rfl⟩
    (by decide)
    ⟨{1} ∪ {2}, "internal.0", by decide⟩

/-! ### Serialisation: `SBT.save` and `SBT.load` -/

/-- One manifest record, as written by `save`: the filter file path, the
node name, and — for Leaf nodes only — the metadata. -/
structure SRecord where
  filename : String
  name : String
  metadata : Option String
deriving DecidableEq

/-- `os.path.join('.sbt.' + tag, '.'.join([tag, node.name, 'sbt']))`. -/
def saveFilename (tag : String) (name : String) : String :=
  ".sbt." ++ tag ++ "/" ++ (tag ++ "." ++ name ++ ".sbt")

/-- The manifest record for one node. -/
def PNode.toRecord (tag : String) (n : PNode) : SRecord :=
  ⟨saveFilename tag n.name, n.name, n.metadataOpt⟩

/-- Body of `save`'s per-node loop: append the structural record, and write
the node's filter file (`node.graph.save(data['filename'])`). -/
def saveStep (tag : String)
    (acc : List (Option SRecord) × List (String × Finset ℕ)) :
    Option PNode → List (Option SRecord) × List (String × Finset ℕ)
  | none => (acc.1 ++ [none], acc.2)
  | some n => (acc.1 ++ [some (n.toRecord tag)],
      acc.2 ++ [(saveFilename tag n.name, n.graph)])

/-- `SBT.save(tag)`: write every node's filter to its tag-and-name-derived
path and dump the structural manifest.  The result models what lands on
disk: the manifest list and the sequence of filter-file writes, in order. -/
def SBT.save (t : SBT) (tag : String) :
    List (Option SRecord) × List (String × Finset ℕ) :=
  t.nodes.foldl (saveStep tag) ([], [])

/-- Reading a written filter file back: the last write to a path wins
(later `graph.save` calls overwrite earlier ones to the same path). -/
def readFile (files : List (String × Finset ℕ)) (fn : String) :
    Option (Finset ℕ) :=
  files.reverse.lookup fn

inductive LoadError where
  /-- `nodes[0]` on an empty manifest list (`IndexError`). -/
  | indexError
  /-- `raise ValueError("Empty tree!")` — the spec's `EmptyTreeError`. -/
  | emptyTree
  /-- a referenced filter file cannot be read (`OSError` from khmer). -/
  | ioError
deriving DecidableEq

/-- One iteration of `load`'s reconstruction loop: `None` slots stay empty;
otherwise load the referenced filter file and rebuild a Leaf
(`Leaf(node['metadata'], graph)`, whose name therefore defaults to the
metadata) or an internal `Node(factory, name)` with the loaded graph. -/
def loadRecord (files : List (String × Finset ℕ)) :
    Option SRecord → Except LoadError (Option PNode)
  | none => pure none
  | some r =>
    match readFile files r.filename with
    | none => Except.error LoadError.ioError
    | some g =>
      match r.metadata with
      | some mdd => pure (some (PNode.leaf mdd mdd g))
      | none => pure (some (PNode.node g r.name))

/-- `SBT.load`: fail on an empty manifest (`IndexError`) or an empty root
slot (`ValueError("Empty tree!")`); recover the filter parameters by
introspecting the root's filter file (modelled as: that file must be
readable); then rebuild every node.  Any failure aborts the whole load —
an `Except.error` carries no partial tree. -/
def SBT.load (manifest : List (Option SRecord))
    (files : List (String × Finset ℕ)) : Except LoadError SBT :=
  match manifest.get? 0 with
  | none => Except.error LoadError.indexError
  | some none => Except.error LoadError.emptyTree
  | some (some r0) =>
    match readFile files r0.filename with
    | none => Except.error LoadError.ioError
    | some _ =>
      (manifest.mapM (loadRecord files)).map (fun ns => (⟨ns⟩ : SBT))

/-- C8: loading a manifest whose root entry is empty raises the
empty-tree error, and an erroring `load` never also returns a tree — the
exception model exposes no partially reconstructed state. -/
theorem sbt_load_empty_error :
    (∀ manifest files, manifest.get? 0 = some none →
      SBT.load manifest files = Except.error LoadError.emptyTree)
    ∧ (∀ manifest files e, SBT.load manifest files = Except.error e →
        ∀ tr, SBT.load manifest files ≠ Except.ok tr) := by
  constructor
  · intro manifest files h
    unfold SBT.load
    rw [h]
  · intro manifest files e he tr hok
    rw [he] at hok
    exact Except.noConfusion hok

/-- Witness for C8: the one-slot empty manifest. -/
theorem sbt_load_empty_error_witness :
    SBT.load [none] [] = Except.error LoadError.emptyTree :=
  sbt_load_empty_error.1 [none] [] rfl

/-- C3 counterexample: two leaves that share the name "a" (with different
filters) collide on the same filter file path, so the second write
overwrites the first; after `load(save(T, "t"))` both leaves carry the
second filter, and the query that matched leaf ["a"] (bit 1) on the
original tree matches nothing on the reloaded tree. -/
theorem sbt_roundtrip_cx :
    (((insertLeaves [PNode.mkLeaf "a" {1}, PNode.mkLeaf "a" {2}]).find
        containsOne).map PNode.identity = ["a"])
    ∧ (SBT.load
          ((insertLeaves [PNode.mkLeaf "a" {1}, PNode.mkLeaf "a" {2}]).save "t").1
          ((insertLeaves [PNode.mkLeaf "a" {1}, PNode.mkLeaf "a" {2}]).save "t").2).map
        (fun tr => (tr.find containsOne).map PNode.identity)
      = Except.ok ([] : List String) := by
  exact ⟨by decide, by rfl⟩

lemma save_eq (t : SBT) (tag : String) :
    t.save tag = (t.nodes.map (Option.map (PNode.toRecord tag)),
      t.nodes.filterMap
        (Option.map (fun n => (saveFilename tag n.name, n.graph)))) := by
  unfold SBT.save
  have main : ∀ (l : List (Option PNode))
      (acc : List (Option SRecord) × List (String × Finset ℕ)),
      l.foldl (saveStep tag) acc =
        (acc.1 ++ l.map (Option.map (PNode.toRecord tag)),
          acc.2 ++ l.filterMap
            (Option.map (fun n => (saveFilename tag n.name, n.graph)))) := by
    intro l
    induction l with
    | nil => intro acc; simp
    | cons x rest ih =>
      intro acc
      cases x with
      | none =>
        rw [List.foldl_cons, ih]
        simp [saveStep]
      | some n =>
        rw [List.foldl_cons, ih]
        simp [saveStep]
  rw [main]
  simp

lemma lookup_nodup {G : Type} (l : List (String × G))
    (hk : (l.map Prod.fst).Nodup) {k : String} {v : G} (hmem : (k, v) ∈ l) :
    l.lookup k = some v := by
  induction l with
  | nil => cases hmem
  | cons x rest ih =>
    obtain ⟨k', v'⟩ := x
    simp only [List.map_cons, List.nodup_cons] at hk
    rcases List.mem_cons.mp hmem with heq | hmem'
    · cases heq
      simp [List.lookup]
    · have hkne : (k == k') = false := by
        rw [beq_eq_false_iff_ne]
        intro hcv
        subst hcv
        exact hk.1 (List.mem_map.mpr ⟨(k, v), hmem', rfl⟩)
      simp only [List.lookup, hkne]
      exact ih hk.2 hmem'

lemma readFile_eq {files : List (String × Finset ℕ)}
    (hk : (files.map Prod.fst).Nodup) {k : String} {v : Finset ℕ}
    (hmem : (k, v) ∈ files) : readFile files k = some v := by
  unfold readFile
  apply lookup_nodup
  · rw [List.map_reverse]
    exact List.nodup_reverse.mpr hk
  · exact List.mem_reverse.mpr hmem

lemma filterMap_optionMap {α β : Type} (f : α → β) (l : List (Option α)) :
    l.filterMap (Option.map f) = (l.filterMap id).map f := by
  induction l with
  | nil => rfl
  | cons x rest ih => cases x <;> simp [ih]

lemma saveFilename_inj (tag : String) : Function.Injective (saveFilename tag) := by
  intro a b h
  unfold saveFilename at h
  have hd := congrArg String.data h
  simp only [String.data_append, List.append_assoc] at hd
  have h1 := List.append_cancel_left hd
  have h2 := List.append_cancel_left h1
  have h3 := List.append_cancel_left h2
  have h4 := List.append_cancel_left h3
  have h5 := List.append_cancel_left h4
  have h6 : a.data = b.data := List.append_cancel_right h5
  cases a
  cases b
  exact congrArg String.mk h6

lemma load_mapM_roundtrip (tag : String) (files : List (String × Finset ℕ)) :
    ∀ (l : List (Option PNode)),
      (∀ n : PNode, some n ∈ l →
        readFile files (saveFilename tag n.name) = some n.graph) →
      (∀ o ∈ l, ∀ mdd nm g, o = some (PNode.leaf mdd nm g) → nm = mdd) →
      (l.map (Option.map (PNode.toRecord tag))).mapM (loadRecord files)
        = Except.ok l := by
  intro l
  induction l with
  | nil => intro _ _; rfl
  | cons x rest ih =>
    intro hread hleaf
    rw [List.map_cons, List.mapM_cons]
    have hx : loadRecord files (Option.map (PNode.toRecord tag) x) = Except.ok x := by
      cases x with
      | none => rfl
      | some n =>
        have hr : readFile files (saveFilename tag n.name) = some n.graph :=
          hread n (List.mem_cons_self _ _)
        cases n with
        | node g nm =>
          simp only [Option.map_some', loadRecord, PNode.toRecord,
            PNode.name, PNode.metadataOpt]
          rw [show saveFilename tag (PNode.node g nm).name
              = saveFilename tag nm from rfl] at hr
          rw [show (PNode.node g nm).graph = g from rfl] at hr
          rw [hr]
          rfl
        | leaf mdd nm g =>
          have hnm : nm = mdd :=
            hleaf (some (PNode.leaf mdd nm g)) (List.mem_cons_self _ _) mdd nm g rfl
          simp only [Option.map_some', loadRecord, PNode.toRecord,
            PNode.name, PNode.metadataOpt]
          rw [show saveFilename tag (PNode.leaf mdd nm g).name
              = saveFilename tag nm from rfl] at hr
          rw [show (PNode.leaf mdd nm g).graph = g from rfl] at hr
          rw [hr, hnm]
          rfl
    rw [hx, ih (fun n hn => hread n (List.mem_cons_of_mem _ hn))
      (fun o ho => hleaf o (List.mem_cons_of_mem _ ho))]
    rfl

lemma get?_zero_of_getD {l : List (Option PNode)} {n : PNode}
    (h : l.getD 0 none = some n) : l.get? 0 = some (some n) := by
  cases l with
  | nil => exact absurd h (by simp)
  | cons x rest =>
    have hx : x = some n := h
    rw [hx]
    rfl

lemma load_of (manifest : List (Option SRecord))
    (files : List (String × Finset ℕ)) (r0 : SRecord) (g0 : Finset ℕ)
    (h0 : manifest.get? 0 = some (some r0))
    (hr : readFile files r0.filename = some g0) :
    SBT.load manifest files
      = (manifest.mapM (loadRecord files)).map (fun ns => (⟨ns⟩ : SBT)) := by
  unfold SBT.load
  split
  · rename_i h
    rw [h0] at h
    exact Option.noConfusion h
  · rename_i h
    rw [h0] at h
    injection h with h'
    exact Option.noConfusion h'
  · rename_i r0' h
    rw [h0] at h
    injection h with h1
    injection h1 with h2
    subst h2
    split
    · rename_i h2
      rw [hr] at h2
      exact Option.noConfusion h2
    · rfl

/-- C3 amended: `load(save(T, tag))` reproduces the tree (and hence the
same ordered Leaf identities for every query) provided the root slot is
occupied, the saved nodes' names are pairwise distinct (otherwise filter
files overwrite one another, see the counterexample), and every Leaf's name
equals its metadata (`load` rebuilds a Leaf's name from its metadata). -/
theorem sbt_save_load_roundtrip (t : SBT) (tag : String)
    (hroot : (nodeAt t 0).isSome = true)
    (hnames : ((t.nodes.filterMap id).map PNode.name).Nodup)
    (hleaf : ∀ o ∈ t.nodes, ∀ mdd nm g, o = some (PNode.leaf mdd nm g) → nm = mdd) :
    SBT.load (t.save tag).1 (t.save tag).2 = Except.ok t
    ∧ ∀ pred, (SBT.load (t.save tag).1 (t.save tag).2).map
        (fun tr => (tr.find pred).map PNode.identity)
      = Except.ok ((t.find pred).map PNode.identity) := by
  have hkeys : ((t.nodes.filterMap
      (Option.map (fun n => (saveFilename tag n.name, n.graph)))).map
        Prod.fst).Nodup := by
    rw [filterMap_optionMap]
    have h2 : ((t.nodes.filterMap id).map
        (fun n : PNode => (saveFilename tag n.name, n.graph))).map Prod.fst
        = ((t.nodes.filterMap id).map PNode.name).map (saveFilename tag) := by
      rw [List.map_map, List.map_map]
      rfl
    rw [h2]
    exact hnames.map (saveFilename_inj tag)
  have hread : ∀ n : PNode, some n ∈ t.nodes →
      readFile (t.nodes.filterMap
        (Option.map (fun n => (saveFilename tag n.name, n.graph))))
        (saveFilename tag n.name) = some n.graph := by
    intro n hn
    apply readFile_eq hkeys
    exact List.mem_filterMap.mpr ⟨some n, hn, rfl⟩
  obtain ⟨n0, hn0⟩ := Option.isSome_iff_exists.mp hroot
  have hn0mem : some n0 ∈ t.nodes := by
    have h := hn0
    unfold nodeAt at h
    cases hl : t.nodes with
    | nil =>
      rw [hl] at h
      exact absurd h (by simp)
    | cons x rest =>
      rw [hl] at h
      have hx : x = some n0 := h
      rw [hx]
      exact List.mem_cons_self _ _
  have hs1 : (t.save tag).1 = t.nodes.map (Option.map (PNode.toRecord tag)) := by
    rw [save_eq]
  have hs2 : (t.save tag).2 = t.nodes.filterMap
      (Option.map (fun n => (saveFilename tag n.name, n.graph))) := by
    rw [save_eq]
  have hg0 : (t.nodes.map (Option.map (PNode.toRecord tag))).get? 0
      = some (some (PNode.toRecord tag n0)) := by
    rw [List.get?_map, get?_zero_of_getD hn0]
    rfl
  have hr0 : readFile (t.nodes.filterMap
      (Option.map (fun n => (saveFilename tag n.name, n.graph))))
      (PNode.toRecord tag n0).filename = some n0.graph := hread n0 hn0mem
  have hmain : SBT.load (t.save tag).1 (t.save tag).2 = Except.ok t := by
    rw [hs1, hs2, load_of _ _ (PNode.toRecord tag n0) n0.graph hg0 hr0,
      load_mapM_roundtrip tag _ t.nodes hread hleaf]
    rfl
  refine ⟨hmain, fun pred => ?_⟩
  rw [hmain]
  rfl

/-- Witness for C3's amended round trip on a two-leaf tree with distinct
names. -/
theorem sbt_save_load_roundtrip_witness :
    SBT.load ((insertLeaves [PNode.mkLeaf "a" {1}, PNode.mkLeaf "b" {2}]).save "t").1
        ((insertLeaves [PNode.mkLeaf "a" {1}, PNode.mkLeaf "b" {2}]).save "t").2
      = Except.ok (insertLeaves [PNode.mkLeaf "a" {1}, PNode.mkLeaf "b" {2}])
    ∧ (SBT.load
          ((insertLeaves [PNode.mkLeaf "a" {1}, PNode.mkLeaf "b" {2}]).save "t").1
          ((insertLeaves [PNode.mkLeaf "a" {1}, PNode.mkLeaf "b" {2}]).save "t").2).map
        (fun tr => (tr.find containsOne).map PNode.identity)
      = Except.ok (((insertLeaves [PNode.mkLeaf "a" {1},
          PNode.mkLeaf "b" {2}]).find containsOne).map PNode.identity) :=
by
  have hleafc : ∀ o ∈ (insertLeaves [PNode.mkLeaf "a" {1}, PNode.mkLeaf "b" {2}]).nodes,
      ∀ mdd nm g, o = some (PNode.leaf mdd nm g) → nm = mdd := by
    intro o ho mdd nm g heq
    have hn : (insertLeaves [PNode.mkLeaf "a" {1}, PNode.mkLeaf "b" {2}]).nodes
        = [some (PNode.node ({1} ∪ {2}) "internal.0"),
           some (PNode.leaf "a" "a" {1}), some (PNode.leaf "b" "b" {2})] := by
      decide
    rw [hn] at ho
    simp only [List.mem_cons, List.not_mem_nil, or_false] at ho
    rcases ho with rfl | rfl | rfl
    · exact absurd heq (by simp)
    · simp only [Option.some.injEq, PNode.leaf.injEq] at heq
      obtain ⟨h1, h2, h3⟩ := heq
      rw [← h1, ← h2]
    · simp only [Option.some.injEq, PNode.leaf.injEq] at heq
      obtain ⟨h1, h2, h3⟩ := heq
      rw [← h1, ← h2]
  exact ⟨(sbt_save_load_roundtrip
      (insertLeaves [PNode.mkLeaf "a" {1}, PNode.mkLeaf "b" {2}])
      "t" (by decide) (by decide) hleafc).1,
    (sbt_save_load_roundtrip
      (insertLeaves [PNode.mkLeaf "a" {1}, PNode.mkLeaf "b" {2}])
      "t" (by decide) (by decide) hleafc).2 containsOne⟩

/-! ### `filter_distance` -/

/-- Python `random.randint(lo, hi)`: a uniformly drawn integer `N` with
`lo ≤ N ≤ hi` — both ends inclusive.  The raw draw is injected as `r`. -/
def pyRandint (lo hi r : ℕ) : ℕ := lo + r % (hi - lo + 1)

/-- `sum(map(int, [not bool((a[i]>>j)&1) ^ bool((b[i]>>j)&1) for j in range(8)]))`:
by Python operator precedence `not` binds *after* `^`, so each term is
`not (bitA xor bitB)` — this counts the bit positions where the two bytes
agree, not where they differ. -/
def bitsEqualCount (x y : ℕ) : ℕ :=
  ((List.range 8).map
    (fun j => if (x >>> j) % 2 = (y >>> j) % 2 then 1 else 0)).sum

inductive DistError where
  /-- `a[i]` with `i = len(a)`: `randint`'s upper bound is inclusive. -/
  | indexError
  /-- the final division when `8.0 * len(A) * n == 0`. -/
  | zeroDivision
deriving DecidableEq

/-- One sampled byte position: read byte `i` of both tables and count the
agreeing bits; out-of-range raises `IndexError`. -/
def tableSample (a b : List ℕ) (i : ℕ) : Except DistError ℕ :=
  match a.get? i, b.get? i with
  | some x, some y => Except.ok (bitsEqualCount x y)
  | _, _ => Except.error DistError.indexError

/-- The inner loop for one pair of raw tables: draw `n` indices
`randint(0, len(a))` using consecutive RNG draws and accumulate the
per-byte agreeing-bit counts into `distance`. -/
def tableDistance (a b : List ℕ) (n base : ℕ) (rng : ℕ → ℕ) :
    Except DistError ℕ :=
  (List.range n).foldlM
    (fun acc k => do
      let c ← tableSample a b (pyRandint 0 a.length (rng (base + k)))
      pure (acc + c)) 0

/-- `filter_distance(filter_a, filter_b, n)`: the raw tables are lists of
bytes (one list per hash table); the two filters' tables are zipped, the
per-table loops accumulate `distance`, and the result is
`distance / (8.0 * len(A) * n)` — modelled exactly over `ℚ`.  The `rng`
function injects the sequence of `randint` draws. -/
def filter_distance (A B : List (List ℕ)) (n : ℕ) (rng : ℕ → ℕ) :
    Except DistError ℚ := do
  let counts ← (A.zip B).enum.mapM
    (fun tp => tableDistance tp.2.1 tp.2.2 n (tp.1 * n) rng)
  if 8 * A.length * n = 0 then Except.error DistError.zeroDivision
  else pure ((counts.sum : ℚ) / ((8 : ℚ) * A.length * n))

deriving instance DecidableEq for Except

/-- C9: the sampled index can equal the table length.  `randint(0, len(a))`
is inclusive at the top, so with one-byte tables a draw of 1 yields index
1 = len(a) and the table access raises `IndexError` — the code's own reads
are not always in bounds. -/
theorem sbt_distance_index_overflow :
    filter_distance [[0]] [[0]] 1 (fun _ => 1)
      = Except.error DistError.indexError := by
  rfl

/-- C5 counterexample: on two identical one-table, one-byte filters the
function returns 1, not 0 — it computes the fraction of *matching* bits
(`not` applies to the whole xor), so identical filters score 1. -/
def isOkE {ε α : Type} : Except ε α → Bool
  | Except.ok _ => true
  | Except.error _ => false

lemma except_bind_ok {ε α β : Type} (a : α) (f : α → Except ε β) :
    (Except.ok a >>= f) = f a := rfl

lemma except_bind_error {ε α β : Type} (e : ε) (f : α → Except ε β) :
    ((Except.error e : Except ε α) >>= f) = Except.error e := rfl

lemma except_pure {ε α : Type} (a : α) : (pure a : Except ε α) = Except.ok a := rfl

lemma bitsEqualCount_le (x y : ℕ) : bitsEqualCount x y ≤ 8 := by
  unfold bitsEqualCount
  have h := List.sum_le_card_nsmul
    ((List.range 8).map (fun j => if (x >>> j) % 2 = (y >>> j) % 2 then 1 else 0)) 1 ?_
  · simpa using h
  · intro z hz
    simp only [List.mem_map] at hz
    obtain ⟨j, _, rfl⟩ := hz
    split <;> omega

lemma bitsEqualCount_self (x : ℕ) : bitsEqualCount x x = 8 := by
  unfold bitsEqualCount
  simp

lemma tableSample_ok_le {a b : List ℕ} {i c : ℕ}
    (h : tableSample a b i = Except.ok c) : c ≤ 8 := by
  unfold tableSample at h
  split at h
  · injection h with h'
    rw [← h']
    apply bitsEqualCount_le
  · exact Except.noConfusion h

lemma tableSample_self {a : List ℕ} {i c : ℕ}
    (h : tableSample a a i = Except.ok c) : c = 8 := by
  unfold tableSample at h
  split at h
  · rename_i x y hx hy
    rw [hx] at hy
    injection hy with hy'
    subst hy'
    injection h with h'
    rw [← h']
    apply bitsEqualCount_self
  · exact Except.noConfusion h

lemma tableDistance_ok_le {a b : List ℕ} {n base c : ℕ} {rng : ℕ → ℕ}
    (h : tableDistance a b n base rng = Except.ok c) : c ≤ 8 * n := by
  unfold tableDistance at h
  have main : ∀ (l : List ℕ) (acc cc : ℕ),
      (l.foldlM (fun acc k => do
        let s ← tableSample a b (pyRandint 0 a.length (rng (base + k)))
        pure (acc + s)) acc) = Except.ok cc → cc ≤ acc + 8 * l.length := by
    intro l
    induction l with
    | nil =>
      intro acc cc h0
      rw [List.foldlM_nil] at h0
      injection h0 with h'
      omega
    | cons k rest ih =>
      intro acc cc h0
      rw [List.foldlM_cons] at h0
      cases hs : tableSample a b (pyRandint 0 a.length (rng (base + k))) with
      | error e =>
        rw [hs] at h0
        simp only [except_bind_error] at h0
        exact Except.noConfusion h0
      | ok s =>
        rw [hs] at h0
        simp only [except_bind_ok, except_pure] at h0
        have hrec := ih (acc + s) cc h0
        have hsle := tableSample_ok_le hs
        simp only [List.length_cons]
        omega
  have := main (List.range n) 0 c h
  simpa using this

lemma tableDistance_self {a : List ℕ} {n base c : ℕ} {rng : ℕ → ℕ}
    (h : tableDistance a a n base rng = Except.ok c) : c = 8 * n := by
  unfold tableDistance at h
  have main : ∀ (l : List ℕ) (acc cc : ℕ),
      (l.foldlM (fun acc k => do
        let s ← tableSample a a (pyRandint 0 a.length (rng (base + k)))
        pure (acc + s)) acc) = Except.ok cc → cc = acc + 8 * l.length := by
    intro l
    induction l with
    | nil =>
      intro acc cc h0
      rw [List.foldlM_nil] at h0
      injection h0 with h'
      simp only [List.length_nil]
      omega
    | cons k rest ih =>
      intro acc cc h0
      rw [List.foldlM_cons] at h0
      cases hs : tableSample a a (pyRandint 0 a.length (rng (base + k))) with
      | error e =>
        rw [hs] at h0
        simp only [except_bind_error] at h0
        exact Except.noConfusion h0
      | ok s =>
        rw [hs] at h0
        simp only [except_bind_ok, except_pure] at h0
        have hrec := ih (acc + s) cc h0
        have hseq := tableSample_self hs
        simp only [List.length_cons]
        omega
  have := main (List.range n) 0 c h
  simpa using this

lemma counts_le {n : ℕ} {rng : ℕ → ℕ} :
    ∀ (pairs : List (ℕ × List ℕ × List ℕ)) (ys : List ℕ),
      pairs.mapM (fun tp => tableDistance tp.2.1 tp.2.2 n (tp.1 * n) rng)
        = Except.ok ys →
      ys.sum ≤ 8 * n * pairs.length := by
  intro pairs
  induction pairs with
  | nil =>
    intro ys h
    rw [List.mapM_nil] at h
    injection h with h'
    rw [← h']
    simp
  | cons tp rest ih =>
    intro ys h
    rw [List.mapM_cons] at h
    cases hd : tableDistance tp.2.1 tp.2.2 n (tp.1 * n) rng with
    | error e =>
      rw [hd] at h
      simp only [except_bind_error] at h
      exact Except.noConfusion h
    | ok y =>
      rw [hd] at h
      simp only [except_bind_ok] at h
      cases hrest : rest.mapM
          (fun tp => tableDistance tp.2.1 tp.2.2 n (tp.1 * n) rng) with
      | error e =>
        rw [hrest] at h
        simp only [except_bind_error] at h
        exact Except.noConfusion h
      | ok ys' =>
        rw [hrest] at h
        simp only [except_bind_ok, except_pure] at h
        injection h with h'
        rw [← h']
        have h1 := tableDistance_ok_le hd
        have h2 := ih ys' hrest
        simp only [List.sum_cons, List.length_cons]
        have h3 : 8 * n * (rest.length + 1) = 8 * n * rest.length + 8 * n := by
          ring
        omega

lemma counts_self {n : ℕ} {rng : ℕ → ℕ} :
    ∀ (pairs : List (ℕ × List ℕ × List ℕ)) (ys : List ℕ),
      (∀ tp ∈ pairs, tp.2.1 = tp.2.2) →
      pairs.mapM (fun tp => tableDistance tp.2.1 tp.2.2 n (tp.1 * n) rng)
        = Except.ok ys →
      ys.sum = 8 * n * pairs.length := by
  intro pairs
  induction pairs with
  | nil =>
    intro ys _ h
    rw [List.mapM_nil] at h
    injection h with h'
    rw [← h']
    simp
  | cons tp rest ih =>
    intro ys hself h
    rw [List.mapM_cons] at h
    cases hd : tableDistance tp.2.1 tp.2.2 n (tp.1 * n) rng with
    | error e =>
      rw [hd] at h
      simp only [except_bind_error] at h
      exact Except.noConfusion h
    | ok y =>
      rw [hd] at h
      simp only [except_bind_ok] at h
      cases hrest : rest.mapM
          (fun tp => tableDistance tp.2.1 tp.2.2 n (tp.1 * n) rng) with
      | error e =>
        rw [hrest] at h
        simp only [except_bind_error] at h
        exact Except.noConfusion h
      | ok ys' =>
        rw [hrest] at h
        simp only [except_bind_ok, except_pure] at h
        injection h with h'
        rw [← h']
        have heq : tp.2.1 = tp.2.2 := hself tp (List.mem_cons_self _ _)
        rw [heq] at hd
        have h1 := tableDistance_self hd
        have h2 := ih ys' (fun x hx => hself x (List.mem_cons_of_mem _ hx)) hrest
        simp only [List.sum_cons, List.length_cons]
        have h3 : 8 * n * (rest.length + 1) = 8 * n * rest.length + 8 * n := by
          ring
        omega

lemma filter_distance_ok {A B : List (List ℕ)} {n : ℕ} {rng : ℕ → ℕ} {q : ℚ}
    (h : filter_distance A B n rng = Except.ok q) :
    ∃ ys, (A.zip B).enum.mapM
        (fun tp => tableDistance tp.2.1 tp.2.2 n (tp.1 * n) rng) = Except.ok ys
      ∧ ¬(8 * A.length * n = 0)
      ∧ q = (ys.sum : ℚ) / ((8 : ℚ) * A.length * n) := by
  unfold filter_distance at h
  cases hm : (A.zip B).enum.mapM
      (fun tp => tableDistance tp.2.1 tp.2.2 n (tp.1 * n) rng) with
  | error e =>
    rw [hm] at h
    simp only [except_bind_error] at h
    exact Except.noConfusion h
  | ok ys =>
    rw [hm] at h
    simp only [except_bind_ok] at h
    by_cases hz : 8 * A.length * n = 0
    · rw [if_pos hz] at h
      exact Except.noConfusion h
    · rw [if_neg hz] at h
      refine ⟨ys, rfl, hz, ?_⟩
      injection h with h'
      exact h'.symm

lemma filter_distance_range {A B : List (List ℕ)} {n : ℕ} {rng : ℕ → ℕ} {q : ℚ}
    (h : filter_distance A B n rng = Except.ok q) : 0 ≤ q ∧ q ≤ 1 := by
  obtain ⟨ys, hm, hz, hq⟩ := filter_distance_ok h
  have hb := counts_le _ _ hm
  have hlen : (A.zip B).enum.length ≤ A.length := by
    rw [List.enum_length, List.length_zip]
    omega
  have hsum : ys.sum ≤ 8 * n * A.length := by
    calc ys.sum ≤ 8 * n * (A.zip B).enum.length := hb
      _ ≤ 8 * n * A.length := by
          exact Nat.mul_le_mul_left _ hlen
  have hpos : (0 : ℚ) < (8 : ℚ) * A.length * n := by
    have h1 : 0 < 8 * A.length * n := Nat.pos_of_ne_zero hz
    have h2 : (0 : ℚ) < ((8 * A.length * n : ℕ) : ℚ) := by
      exact_mod_cast h1
    calc (0 : ℚ) < ((8 * A.length * n : ℕ) : ℚ) := h2
      _ = (8 : ℚ) * A.length * n := by push_cast; ring
  subst hq
  constructor
  · apply div_nonneg
    · exact_mod_cast Nat.zero_le _
    · exact le_of_lt hpos
  · rw [div_le_one hpos]
    calc ((ys.sum : ℕ) : ℚ) ≤ ((8 * n * A.length : ℕ) : ℚ) := by
          exact_mod_cast hsum
      _ = (8 : ℚ) * A.length * n := by push_cast; ring

lemma filter_distance_self {A : List (List ℕ)} {n : ℕ} {rng : ℕ → ℕ} {q : ℚ}
    (h : filter_distance A A n rng = Except.ok q) : q = 1 := by
  obtain ⟨ys, hm, hz, hq⟩ := filter_distance_ok h
  have hself : ∀ tp ∈ (A.zip A).enum, (tp : ℕ × List ℕ × List ℕ).2.1 = tp.2.2 := by
    intro tp htp
    have hmem : tp.2 ∈ A.zip A := by
      have := List.mem_map_of_mem Prod.snd htp
      rwa [List.enum_map_snd] at this
    have main : ∀ (l : List (List ℕ)) (x : List ℕ × List ℕ), x ∈ l.zip l → x.1 = x.2 := by
      intro l
      induction l with
      | nil => intro x hx; cases hx
      | cons a rest ih =>
        intro x hx
        rcases List.mem_cons.mp hx with rfl | hx'
        · rfl
        · exact ih x hx'
    exact main A tp.2 hmem
  have hsum := counts_self _ _ hself hm
  have hlen : (A.zip A).enum.length = A.length := by
    rw [List.enum_length, List.length_zip]
    omega
  rw [hlen] at hsum
  have hne : ((8 : ℚ) * A.length * n) ≠ 0 := by
    have h1 : 0 < 8 * A.length * n := Nat.pos_of_ne_zero hz
    have h2 : ((8 * A.length * n : ℕ) : ℚ) ≠ 0 := by
      exact_mod_cast Nat.pos_iff_ne_zero.mp h1
    intro hcv
    apply h2
    rw [← hcv]
    push_cast
    ring
  subst hq
  rw [hsum, div_eq_one_iff_eq hne]
  push_cast
  ring

/-- C5 counterexample: on two identical filters (same single table, byte 5)
`filter_distance` returns 1, not 0: by Python precedence `not` negates the
whole xor, so the function counts *matching* bits. -/
theorem sbt_distance_identical_cx :
    filter_distance [[5]] [[5]] 1 (fun _ => 0) = Except.ok 1
    ∧ (1 : ℚ) ≠ 0 := by
  have hok : isOkE (filter_distance [[5]] [[5]] 1 (fun _ => 0)) = true := by
    rfl
  obtain ⟨q, hq⟩ : ∃ q, filter_distance [[5]] [[5]] 1 (fun _ => 0) = Except.ok q := by
    cases hfd : filter_distance [[5]] [[5]] 1 (fun _ => 0) with
    | error e =>
      rw [hfd] at hok
      exact Bool.noConfusion hok
    | ok q => exact ⟨q, rfl⟩
  have h1 : q = 1 := filter_distance_self hq
  rw [h1] at hq
  exact ⟨hq, by norm_num⟩

/-- C5 amended: whenever `filter_distance` returns a value (all sampled
indices in range and a non-zero denominator), the value lies in `[0, 1]`;
for two filters with identical raw tables every successful run returns
exactly 1, the mean fraction of *matching* bits — not 0 — because the
`not` applies to the whole xor. -/
theorem sbt_distance_range_and_identical (A B : List (List ℕ)) (n : ℕ)
    (rng : ℕ → ℕ) (q : ℚ) (h : filter_distance A B n rng = Except.ok q) :
    (0 ≤ q ∧ q ≤ 1) ∧ (A = B → q = 1) := by
  refine ⟨filter_distance_range h, fun hab => ?_⟩
  subst hab
  exact filter_distance_self h

/-- Witness for C5's amended statement: a successful two-table run. -/
theorem sbt_distance_range_witness :
    (∃ q, filter_distance [[5, 3], [7]] [[1, 3], [6]] 2 (fun _ => 0)
        = Except.ok q
      ∧ (0 ≤ q ∧ q ≤ 1) ∧ ([[5, 3], [7]] = [[1, 3], [6]] → q = 1)) := by
  have hok : isOkE (filter_distance [[5, 3], [7]] [[1, 3], [6]] 2 (fun _ => 0))
      = true := by rfl
  obtain ⟨q, hq⟩ : ∃ q, filter_distance [[5, 3], [7]] [[1, 3], [6]] 2 (fun _ => 0)
      = Except.ok q := by
    cases hfd : filter_distance [[5, 3], [7]] [[1, 3], [6]] 2 (fun _ => 0) with
    | error e =>
      rw [hfd] at hok
      exact Bool.noConfusion hok
    | ok q => exact ⟨q, rfl⟩
  exact ⟨q, hq, sbt_distance_range_and_identical _ _ _ _ q hq⟩
